import Mathlib

/-!
# Scene-graph view helpers of `src/view/view-impl.cpp`

A shallow embedding of the view helpers of the compositor core
(`gather_views`, `collect_views_from_scenegraph`, `collect_views_from_output`,
`get_view_layer`, `view_bring_to_front`, the signal emitters) together with
the properties proved about them.

Nodes live in a store indexed by their identity (a natural number standing for
the pointer); a pointer that may be null is an `Option`.  Loops and recursions
that follow pointers take a fuel argument and return `none` when the fuel runs
out, so that a walk over a cyclic graph has no result.
-/

namespace wf

/-! ## Data model -/

/-- The rectangle `wf::geometry_t`: four integers. -/
structure geometry_t where
  x : Int
  y : Int
  width : Int
  height : Int
deriving DecidableEq, Repr

namespace scene

/-- What the helpers read from a `wf::scene::node_t`: `parent()`,
`get_children()`, `is_enabled()`, `wf::node_to_view(node)` (the view the node
is tagged with, if any), `is_structure_node()`, whether the node is a
`floating_inner_node_t` (the `dynamic_cast` test) and `get_bounding_box()`. -/
structure node_t where
  parent : Option Nat
  children : List Nat
  enabled : Bool
  view : Option Nat
  structure_node : Bool
  floating_inner : Bool
  bounding_box : geometry_t
deriving DecidableEq, Repr

/-- The scene graph held by the core: the node store, the graph root
(`wf::get_core().scene()`), its array `layers[0 .. ALL_LAYERS)` of layer nodes
and the damage requests issued so far (node and region, oldest first). -/
structure graph where
  node : Nat → node_t
  root : Nat
  ALL_LAYERS : Nat
  layers : Nat → Nat
  damage : List (Nat × geometry_t)

end scene

open scene

/-- The result of `wf::node_to_view(node)`. -/
def node_to_view (s : graph) (n : Nat) : Option Nat := (s.node n).view

/-! ## Collecting views -/

/-- The static `gather_views(root, views)`: the vector `views` is threaded
through; `none` when the recursion is deeper than `fuel`. -/
def gather_views (s : graph) : Nat → Nat → List Nat → Option (List Nat)
  | 0, _, _ => none
  | fuel + 1, root, views =>
    if (s.node root).enabled = false then
      some views
    else
      match node_to_view s root with
      | some view => some (views ++ [view])
      | none =>
        (s.node root).children.foldlM (fun acc ch => gather_views s fuel ch acc) views

/-- The function `wf::collect_views_from_scenegraph(root)`. -/
def collect_views_from_scenegraph (s : graph) (fuel : Nat) (root : Nat) : Option (List Nat) :=
  gather_views s fuel root []

/-- The output side of `wf::output_t` read here: `node_for_layer(layer)`, the
node of the output inside each layer. -/
structure output_t where
  node_for_layer : Nat → Nat

/-- The function `wf::collect_views_from_output(output, layers)`: one vector,
filled by `gather_views` layer after layer in the order of the list. -/
def collect_views_from_output (s : graph) (fuel : Nat) (output : output_t)
    (layers : List Nat) : Option (List Nat) :=
  layers.foldlM (fun views layer => gather_views s fuel (output.node_for_layer layer) views) []

/-- The concatenation of a list of results in the order of the list; it has
a value when every result has one. -/
def concat_results : List (Option (List Nat)) → Option (List Nat)
  | [] => some []
  | none :: _ => none
  | some a :: rs => (concat_results rs).map (fun b => a ++ b)

/-- Every chain of child links that starts at a node, as the list of the
nodes on it, in depth-first pre-order following the stored order of the
children (chains of at most `d` nodes). -/
def paths_preorder (s : graph) : Nat → Nat → List (List Nat)
  | 0, _ => []
  | d + 1, n =>
    [n] :: (s.node n).children.flatMap (fun c => (paths_preorder s d c).map (fun p => n :: p))

/-- The nodes below a node (itself first) in depth-first pre-order, one entry
for every way of reaching a node. -/
def nodes_preorder (s : graph) : Nat → Nat → List Nat
  | 0, _ => []
  | d + 1, n => n :: (s.node n).children.flatMap (nodes_preorder s d)

/-- The view that the end of a chain contributes to the listing: the end is
enabled and corresponds to a view, and every node before it on the chain is
enabled and corresponds to no view. -/
def recorded_view (s : graph) : List Nat → Option Nat
  | [] => none
  | [n] => if (s.node n).enabled = true then node_to_view s n else none
  | n :: m :: rest =>
    if (s.node n).enabled = true ∧ node_to_view s n = none then
      recorded_view s (m :: rest)
    else none

/-- The reference pre-order listing of the views below `root`: walk all the
chains from `root` in pre-order and keep the views recorded at their ends. -/
def reference_listing (s : graph) (d : Nat) (root : Nat) : List Nat :=
  (paths_preorder s d root).filterMap (recorded_view s)

/-- A chain of child links leading from the first node down to the second, on
which every node (both ends included) is enabled. -/
inductive enabled_path (s : graph) : Nat → Nat → Prop
  | here (n : Nat) : (s.node n).enabled = true → enabled_path s n n
  | step (a c b : Nat) : (s.node a).enabled = true → c ∈ (s.node a).children →
      enabled_path s c b → enabled_path s a b

/-- The subtree hanging from a node is finite: every chain of child links
from it has fewer than `d` links. -/
def finite_below (s : graph) : Nat → Nat → Bool
  | 0, _ => false
  | d + 1, n => (s.node n).children.all (finite_below s d)

/-! ## A small scene used to run the definitions

```
0 (root) ─┬─ 1 (layer 0) ─── 3 (view 30) ─── 8 (view 80)
          └─ 2 (layer 1) ─┬─ 4 (floating) ─┬─ 5 (view 50)
                          │                └─ 6 (view 60)
                          └─ 7 (disabled) ─── 9 (view 90)
```
-/

/-- The nodes of the example scene; every other identity is a detached,
disabled node without children. -/
def example_node : Nat → node_t
  | 0 => ⟨none, [1, 2], true, none, true, false, ⟨0, 0, 800, 600⟩⟩
  | 1 => ⟨some 0, [3], true, none, true, true, ⟨0, 0, 800, 600⟩⟩
  | 2 => ⟨some 0, [4, 7], true, none, true, true, ⟨0, 0, 800, 600⟩⟩
  | 3 => ⟨some 1, [8], true, some 30, false, false, ⟨0, 0, 100, 100⟩⟩
  | 4 => ⟨some 2, [5, 6], true, none, false, true, ⟨10, 10, 300, 200⟩⟩
  | 5 => ⟨some 4, [], true, some 50, false, false, ⟨10, 10, 100, 100⟩⟩
  | 6 => ⟨some 4, [], true, some 60, false, false, ⟨60, 60, 250, 150⟩⟩
  | 7 => ⟨some 2, [9], false, none, false, true, ⟨0, 0, 50, 50⟩⟩
  | 8 => ⟨some 3, [], true, some 80, false, false, ⟨0, 0, 10, 10⟩⟩
  | 9 => ⟨some 7, [], true, some 90, false, false, ⟨0, 0, 50, 50⟩⟩
  | _ => ⟨none, [], false, none, false, false, ⟨0, 0, 0, 0⟩⟩

/-- The example scene: two layers, no damage requested yet. -/
def example_graph : graph :=
  { node := example_node, root := 0, ALL_LAYERS := 2, layers := fun i => i + 1, damage := [] }

/-- An output whose node in layer `l` is the layer node `l + 1` itself. -/
def example_output : output_t := { node_for_layer := fun l => l + 1 }

/-- The nodes of the twin scene: the root 0 with the two enabled children 1
and 2, each of which corresponds to view 30. -/
def twin_node : Nat → node_t
  | 0 => ⟨none, [1, 2], true, none, true, false, ⟨0, 0, 800, 600⟩⟩
  | 1 => ⟨some 0, [], true, some 30, false, false, ⟨0, 0, 100, 100⟩⟩
  | 2 => ⟨some 0, [], true, some 30, false, false, ⟨100, 0, 100, 100⟩⟩
  | _ => ⟨none, [], false, none, false, false, ⟨0, 0, 0, 0⟩⟩

/-- The twin scene. -/
def twin_graph : graph :=
  { node := twin_node, root := 0, ALL_LAYERS := 0, layers := fun i => i, damage := [] }

/-! ## Views and the layer of a view -/

/-- What the helpers read from a view (`wf::view_interface_t`): its identity
(`self()`), `get_root_node()` and `get_output()`, which may be null. -/
structure view_interface_t where
  id : Nat
  root_node : Nat
  output : Option Nat
deriving DecidableEq, Repr

/-- The inner loop of `get_view_layer`,
`for (i = 0; i < ALL_LAYERS; i++) if (node == root->layers[i].get()) return i;`
started at index `i` with `remaining` indices left. -/
def find_layer_from (s : graph) (node : Nat) : Nat → Nat → Option Nat
  | 0, _ => none
  | remaining + 1, i =>
    if node = s.layers i then some i else find_layer_from s node remaining (i + 1)

/-- The inner loop of `get_view_layer` over all of `layers[0 .. ALL_LAYERS)`. -/
def find_layer (s : graph) (node : Nat) : Option Nat :=
  find_layer_from s node s.ALL_LAYERS 0

/-- The `while (node->parent())` loop of `wf::get_view_layer`; the outer
`Option` is `none` when the walk is longer than `fuel`, the inner one is the
`std::optional` that the function returns. -/
def get_view_layer_loop (s : graph) : Nat → Nat → Option (Option Nat)
  | 0, _ => none
  | fuel + 1, node =>
    match (s.node node).parent with
    | none => some none
    | some p =>
      if p = s.root then
        match find_layer s node with
        | some i => some (some i)
        | none => get_view_layer_loop s fuel p
      else
        get_view_layer_loop s fuel p

/-- The function `wf::get_view_layer(view)`. -/
def get_view_layer (s : graph) (fuel : Nat) (view : view_interface_t) : Option (Option Nat) :=
  get_view_layer_loop s fuel view.root_node

/-- The node reached from `n` after `k` parent links, if the chain is that
long (`ancestor s 0 n` is `n` itself). -/
def ancestor (s : graph) : Nat → Nat → Option Nat
  | 0, n => some n
  | k + 1, n =>
    match (s.node n).parent with
    | none => none
    | some p => ancestor s k p

/-- The parent chain of `n` is finite (hence acyclic): after `k` links it
reaches a node without parent. -/
def chain_ends (s : graph) (n k : Nat) : Prop :=
  ∃ t, ancestor s k n = some t ∧ (s.node t).parent = none

/-- A scene with three layers (nodes 1, 2, 3 under the root 0): the view node
6 lies two floating containers (4 and 5) deep under layer 2, node 8 lies in a
detached subtree with top 7, node 10 lies under node 9, a child of the root
that is no layer node, and the root node of the last view is detached. -/
def layered_node : Nat → node_t
  | 0 => ⟨none, [1, 2, 3, 9], true, none, true, false, ⟨0, 0, 800, 600⟩⟩
  | 1 => ⟨some 0, [], true, none, true, true, ⟨0, 0, 800, 600⟩⟩
  | 2 => ⟨some 0, [], true, none, true, true, ⟨0, 0, 800, 600⟩⟩
  | 3 => ⟨some 0, [4], true, none, true, true, ⟨0, 0, 800, 600⟩⟩
  | 4 => ⟨some 3, [5], true, none, false, true, ⟨0, 0, 400, 300⟩⟩
  | 5 => ⟨some 4, [6], true, none, false, true, ⟨0, 0, 200, 100⟩⟩
  | 6 => ⟨some 5, [], true, some 60, false, false, ⟨0, 0, 200, 100⟩⟩
  | 7 => ⟨none, [8], true, none, false, true, ⟨0, 0, 10, 10⟩⟩
  | 8 => ⟨some 7, [], true, some 80, false, false, ⟨0, 0, 10, 10⟩⟩
  | 9 => ⟨some 0, [10], true, none, false, true, ⟨0, 0, 10, 10⟩⟩
  | 10 => ⟨some 9, [], true, some 100, false, false, ⟨0, 0, 10, 10⟩⟩
  | _ => ⟨none, [], false, none, false, false, ⟨0, 0, 0, 0⟩⟩

/-- The layered example scene. -/
def layered_graph : graph :=
  { node := layered_node, root := 0, ALL_LAYERS := 3, layers := fun i => i + 1, damage := [] }

/-! ## Raising a view to the front -/

/-- Modelled from the spec: `wf::scene::raise_to_front(node)`, which is
declared in `wayfire/scene-operations.hpp` and not part of this file; the
spec says it moves the node to the front of the child order of its parent.
The other children keep their relative order; a node without parent is left
alone. -/
def raise_to_front (s : graph) (child : Nat) : graph :=
  match (s.node child).parent with
  | none => s
  | some p =>
    { s with
      node := fun n =>
        if n = p then
          { s.node p with
            children := child :: (s.node p).children.filter (fun c => c ≠ child) }
        else s.node n }

/-- The call `node->get_bounding_box()`. -/
def get_bounding_box (s : graph) (n : Nat) : geometry_t := (s.node n).bounding_box

/-- Modelled from the spec: `wf::scene::damage_node(node, region)`, which is
declared in `wayfire/scene-operations.hpp` and not part of this file; the
spec says damage is accumulated and not applied at once, so the request is
appended to the damage accumulated in the scene. -/
def damage_node (s : graph) (node : Nat) (region : geometry_t) : graph :=
  { s with damage := s.damage ++ [(node, region)] }

/-- The `while (node->parent())` loop of `wf::view_bring_to_front`, on the
scene `s`, the current `node` and the current `damage_from` (null is
`none`); `none` when the walk is longer than `fuel`. -/
def view_bring_to_front_loop : Nat → graph → Nat → Option Nat → Option (graph × Option Nat)
  | 0, _, _, _ => none
  | fuel + 1, s, node, damage_from =>
    match (s.node node).parent with
    | none => some (s, damage_from)
    | some p =>
      if (s.node node).structure_node = false ∧ (s.node p).floating_inner = true then
        view_bring_to_front_loop fuel (raise_to_front s node) p (some p)
      else
        view_bring_to_front_loop fuel s p damage_from

/-- The function `wf::view_bring_to_front(view)`: the walk, then the damage
request when `damage_from` is not null. -/
def view_bring_to_front (s : graph) (fuel : Nat) (view : view_interface_t) : Option graph :=
  match view_bring_to_front_loop fuel s view.root_node none with
  | none => none
  | some (s1, none) => some s1
  | some (s1, some d) => some (damage_node s1 d (get_bounding_box s1 d))

/-- A step of the walk from `n` to its parent `p` qualifies: `n` is not a
structure node and `p` is a floating-inner node. -/
def qualifying_step (s : graph) (n p : Nat) : Prop :=
  (s.node n).parent = some p ∧ (s.node n).structure_node = false ∧
    (s.node p).floating_inner = true

instance (s : graph) (n p : Nat) : Decidable (qualifying_step s n p) := by
  unfold qualifying_step
  infer_instance

/-- Two scenes that differ at most in the child lists of their nodes and in
the accumulated damage. -/
structure same_frame (s1 s : graph) : Prop where
  parent : ∀ m, (s1.node m).parent = (s.node m).parent
  enabled : ∀ m, (s1.node m).enabled = (s.node m).enabled
  view : ∀ m, (s1.node m).view = (s.node m).view
  structure_node : ∀ m, (s1.node m).structure_node = (s.node m).structure_node
  floating_inner : ∀ m, (s1.node m).floating_inner = (s.node m).floating_inner
  bounding_box : ∀ m, (s1.node m).bounding_box = (s.node m).bounding_box
  root : s1.root = s.root
  all_layers : s1.ALL_LAYERS = s.ALL_LAYERS
  layers : s1.layers = s.layers

/-! ## Signals -/

/-- The signal structs filled in by the emitters, each with the fields that
the code sets (`view` is the identity of the originating view). -/
inductive signal
  | view_mapped_signal (view : Nat) (is_positioned : Bool)
  | view_ping_timeout_signal (view : Nat)
  | view_geometry_changed_signal (view : Nat) (old_geometry : geometry_t)
  | view_unmapped_signal (view : Nat)
  | view_disappeared_signal (view : Nat)
  | view_pre_unmap_signal (view : Nat)
deriving DecidableEq, Repr

/-- The object whose `emit` is called: a view (`view->emit`), an output
(`view->get_output()->emit`) or the core (`wf::get_core().emit`). -/
inductive scope
  | view (id : Nat)
  | output (id : Nat)
  | core
deriving DecidableEq, Repr

/-- One call of `emit`: where the signal is delivered and what it carries. -/
structure emission where
  target : scope
  data : signal
deriving DecidableEq, Repr

/-- How a run of an emitter ends: it returns after the deliveries of `trace`,
or it calls `emit` through a null output pointer after them. -/
inductive outcome
  | done (trace : List emission)
  | null_dereference (trace : List emission)
deriving DecidableEq, Repr

/-- The function `wf::emit_view_map_signal(view, has_position)`; the call
`view->get_output()->emit(&data)` is made without a test of the pointer. -/
def emit_view_map_signal (view : view_interface_t) (has_position : Bool) : outcome :=
  let data := signal.view_mapped_signal view.id has_position
  let trace := [emission.mk (scope.view view.id) data]
  match view.output with
  | none => outcome.null_dereference trace
  | some o =>
    let trace := trace ++ [emission.mk (scope.output o) data]
    outcome.done (trace ++ [emission.mk scope.core data])

/-- The method `wf::view_interface_t::emit_view_map()`. -/
def emit_view_map (view : view_interface_t) : outcome :=
  emit_view_map_signal view false

/-- The method `wf::view_interface_t::emit_view_unmap()`. -/
def emit_view_unmap (view : view_interface_t) : outcome :=
  let data := signal.view_unmapped_signal view.id
  let trace :=
    match view.output with
    | some o =>
      let disappeared_data := signal.view_disappeared_signal view.id
      [emission.mk (scope.output o) data, emission.mk (scope.output o) disappeared_data]
    | none => []
  let trace := trace ++ [emission.mk (scope.view view.id) data]
  outcome.done (trace ++ [emission.mk scope.core data])

/-- The method `wf::view_interface_t::emit_view_pre_unmap()`. -/
def emit_view_pre_unmap (view : view_interface_t) : outcome :=
  let data := signal.view_pre_unmap_signal view.id
  let trace :=
    match view.output with
    | some o => [emission.mk (scope.output o) data]
    | none => []
  let trace := trace ++ [emission.mk (scope.view view.id) data]
  outcome.done (trace ++ [emission.mk scope.core data])

/-- The function `wf::emit_geometry_changed_signal(view, old_geometry)`. -/
def emit_geometry_changed_signal (view : view_interface_t) (old_geometry : geometry_t) :
    outcome :=
  let data := signal.view_geometry_changed_signal view.id old_geometry
  let trace := [emission.mk (scope.view view.id) data]
  let trace := trace ++ [emission.mk scope.core data]
  match view.output with
  | some o => outcome.done (trace ++ [emission.mk (scope.output o) data])
  | none => outcome.done trace

/-- The function `wf::emit_ping_timeout_signal(view)`. -/
def emit_ping_timeout_signal (view : view_interface_t) : outcome :=
  let data := signal.view_ping_timeout_signal view.id
  outcome.done [emission.mk (scope.view view.id) data]

/-! ## Geometry adjustment -/

/-- The size `wf::dimensions_t`: two integers. -/
structure dimensions_t where
  width : Int
  height : Int
deriving DecidableEq, Repr

/-- The least value of a C `int` of 32 bits. -/
def INT_MIN : Int := -2147483648

/-- The greatest value of a C `int` of 32 bits. -/
def INT_MAX : Int := 2147483647

/-- The value that `int` arithmetic leaves in place of the exact result `z`:
`z` itself when it lies between `INT_MIN` and `INT_MAX`, and otherwise `z`
reduced modulo `2^32` into that range (two's complement wrap-around). -/
def int_wrap (z : Int) : Int := (z + 2147483648) % 4294967296 - 2147483648

/-- What `adjust_geometry_for_gravity` reads and writes of a
`wf::toplevel_state_t`: the geometry and the gravity bitset.  The fields of
the geometry and of the size are C `int`s; sums and differences of them are
taken through `int_wrap`. -/
structure toplevel_state_t where
  geometry : geometry_t
  gravity : Nat
deriving DecidableEq, Repr

/-- Modelled from the spec: the flag of the top edge in a gravity bitset, a
bitset over four edges; the value is that of `enum wlr_edges` of wlroots,
which this file uses and does not declare. -/
def WLR_EDGE_TOP : Nat := 1

/-- Modelled from the spec: the flag of the bottom edge (`enum wlr_edges`). -/
def WLR_EDGE_BOTTOM : Nat := 2

/-- Modelled from the spec: the flag of the left edge (`enum wlr_edges`). -/
def WLR_EDGE_LEFT : Nat := 4

/-- Modelled from the spec: the flag of the right edge (`enum wlr_edges`). -/
def WLR_EDGE_RIGHT : Nat := 8

/-- The function `wf::adjust_geometry_for_gravity(desired_state, actual_size)`;
the state passed by reference is returned. -/
def adjust_geometry_for_gravity (desired_state : toplevel_state_t)
    (actual_size : dimensions_t) : toplevel_state_t :=
  let desired_state :=
    if desired_state.gravity &&& WLR_EDGE_RIGHT ≠ 0 then
      { desired_state with
        geometry := { desired_state.geometry with
          x := int_wrap (desired_state.geometry.x +
            int_wrap (desired_state.geometry.width - actual_size.width)) } }
    else desired_state
  let desired_state :=
    if desired_state.gravity &&& WLR_EDGE_BOTTOM ≠ 0 then
      { desired_state with
        geometry := { desired_state.geometry with
          y := int_wrap (desired_state.geometry.y +
            int_wrap (desired_state.geometry.height - actual_size.height)) } }
    else desired_state
  { desired_state with
    geometry := { desired_state.geometry with
      width := actual_size.width, height := actual_size.height } }

/-! ## Mapped surface contents -/

/-- What is read of the content, a `scene::wlr_surface_node_t`: its identity
and `get_surface()`, which may be null. -/
structure wlr_surface_node_t where
  id : Nat
  surface : Option Nat
deriving DecidableEq, Repr

/-- A `wlr_surface_controller_t`, made from the surface it observes and the
node it keeps in step with it. -/
structure wlr_surface_controller_t where
  surface : Nat
  root_node : Nat
deriving DecidableEq, Repr

/-- The part of `view_priv_impl` that the two methods touch: the tracked
`wsurface` (null is `none`), the node `surface_root_node` with its child list
and the updates requested for it, and the `surface_controller`
(an empty `unique_ptr` is `none`). -/
structure view_priv_impl where
  wsurface : Option Nat
  surface_root_node : Nat
  surface_root_children : List wlr_surface_node_t
  updates : Nat
  surface_controller : Option wlr_surface_controller_t
deriving DecidableEq, Repr

/-- Modelled from the spec: `surface_root_node->set_children_list(list)`, a
method of the scene nodes that is not part of this file; the spec says it
replaces the child list at once. -/
def set_children_list (priv : view_priv_impl) (children : List wlr_surface_node_t) :
    view_priv_impl :=
  { priv with surface_root_children := children }

/-- Modelled from the spec: `scene::update(surface_root_node, CHILDREN_LIST)`,
which is not part of this file; the spec says it marks the subtree as
structurally changed, which is counted here. -/
def scene_update (priv : view_priv_impl) : view_priv_impl :=
  { priv with updates := priv.updates + 1 }

/-- The method `view_priv_impl::set_mapped_surface_contents(content)`. -/
def set_mapped_surface_contents (priv : view_priv_impl) (content : wlr_surface_node_t) :
    view_priv_impl :=
  let priv := { priv with wsurface := content.surface }
  let priv := set_children_list priv [content]
  let priv := scene_update priv
  match content.surface with
  | some surface =>
    { priv with surface_controller := some ⟨surface, priv.surface_root_node⟩ }
  | none => priv

/-- The method `view_priv_impl::unset_mapped_surface_contents()`. -/
def unset_mapped_surface_contents (priv : view_priv_impl) : view_priv_impl :=
  let priv := { priv with wsurface := none }
  let priv := set_children_list priv []
  let priv := scene_update priv
  { priv with surface_controller := none }

/-- A freshly created view: nothing under the surface root, no controller, no
tracked surface. -/
def fresh_view_priv (surface_root_node : Nat) : view_priv_impl :=
  ⟨none, surface_root_node, [], 0, none⟩

/-- The states that a fresh view reaches by calls of
`set_mapped_surface_contents` and `unset_mapped_surface_contents`. -/
inductive reachable (surface_root_node : Nat) : view_priv_impl → Prop
  | fresh : reachable surface_root_node (fresh_view_priv surface_root_node)
  | set (priv : view_priv_impl) (content : wlr_surface_node_t) :
      reachable surface_root_node priv →
      reachable surface_root_node (set_mapped_surface_contents priv content)
  | unset (priv : view_priv_impl) :
      reachable surface_root_node priv →
      reachable surface_root_node (unset_mapped_surface_contents priv)

/-! ## From a surface resource to its view -/

/-- What is read of a `wlr_surface`: for each of the three shells whether the
surface is one of its surfaces (`wlr_surface_is_xdg_surface`,
`wlr_surface_is_layer_surface`, `wlr_surface_is_xwayland_surface`) and the
`data` pointer of its shell surface (`wlr_xdg_surface_from_wlr_surface(surface)->data`
and its two siblings), which is null or points to a view. -/
structure wlr_surface where
  is_xdg_surface : Bool
  xdg_data : Option view_interface_t
  is_layer_surface : Bool
  layer_data : Option view_interface_t
  is_xwayland_surface : Bool
  xwayland_data : Option view_interface_t
deriving DecidableEq, Repr

/-- A `wl_resource`: its user data (`wl_resource_get_user_data`), which is
null or a surface. -/
structure wl_resource where
  user_data : Option wlr_surface
deriving DecidableEq, Repr

/-- The function `wf::wl_surface_to_wayfire_view(resource)`; the resource
pointer may be null, and `WF_HAS_XWAYLAND` is the build flag under which the
third test is compiled.  The returned view is `view->self()`, the view
itself. -/
def wl_surface_to_wayfire_view (WF_HAS_XWAYLAND : Bool) (resource : Option wl_resource) :
    Option view_interface_t :=
  match resource with
  | none => none
  | some resource =>
    match resource.user_data with
    | none => none
    | some surface =>
      let handle : Option view_interface_t := none
      let handle := if surface.is_xdg_surface = true then surface.xdg_data else handle
      let handle := if surface.is_layer_surface = true then surface.layer_data else handle
      let handle :=
        if WF_HAS_XWAYLAND = true ∧ surface.is_xwayland_surface = true then
          surface.xwayland_data
        else handle
      match handle with
      | some view => some view
      | none => none

end wf

namespace wf

open scene

/-! ## Properties of `gather_views` -/

theorem gather_views_children_sound (s : graph) (fuel : Nat)
    (ih : ∀ root views out, gather_views s fuel root views = some out →
      ∃ new, out = views ++ new ∧
        ∀ v ∈ new, ∃ n, node_to_view s n = some v ∧ enabled_path s root n) :
    ∀ (cs : List Nat) (views out : List Nat),
      cs.foldlM (fun acc ch => gather_views s fuel ch acc) views = some out →
      ∃ new, out = views ++ new ∧
        ∀ v ∈ new, ∃ c ∈ cs, ∃ n, node_to_view s n = some v ∧ enabled_path s c n := by
  intro cs
  induction cs with
  | nil =>
    intro views out h
    simp at h
    exact ⟨[], by simp [h], by simp⟩
  | cons c cs ihcs =>
    intro views out h
    rw [List.foldlM_cons] at h
    cases hc : gather_views s fuel c views with
    | none => simp [hc] at h
    | some mid =>
      simp [hc] at h
      obtain ⟨new1, hmid, h1⟩ := ih c views mid hc
      obtain ⟨new2, hout, h2⟩ := ihcs mid out h
      refine ⟨new1 ++ new2, by simp [hout, hmid], ?_⟩
      intro v hv
      rcases List.mem_append.1 hv with hv | hv
      · obtain ⟨n, hn, hp⟩ := h1 v hv
        exact ⟨c, by simp, n, hn, hp⟩
      · obtain ⟨c2, hc2, n, hn, hp⟩ := h2 v hv
        exact ⟨c2, by simp [hc2], n, hn, hp⟩

theorem gather_views_sound (s : graph) :
    ∀ (fuel root : Nat) (views out : List Nat),
      gather_views s fuel root views = some out →
      ∃ new, out = views ++ new ∧
        ∀ v ∈ new, ∃ n, node_to_view s n = some v ∧ enabled_path s root n := by
  intro fuel
  induction fuel with
  | zero => intro root views out h; simp [gather_views] at h
  | succ fuel ih =>
    intro root views out h
    unfold gather_views at h
    by_cases he : (s.node root).enabled = false
    · simp [he] at h
      exact ⟨[], by simp [h], by simp⟩
    · have he1 : (s.node root).enabled = true := by simpa using he
      simp only [he, if_false] at h
      cases hv : node_to_view s root with
      | some view =>
        simp [hv] at h
        refine ⟨[view], h.symm, ?_⟩
        intro v hv2
        simp at hv2
        subst hv2
        exact ⟨root, hv, enabled_path.here root he1⟩
      | none =>
        simp only [hv] at h
        obtain ⟨new, hout, hnew⟩ :=
          gather_views_children_sound s fuel ih (s.node root).children views out h
        refine ⟨new, hout, ?_⟩
        intro v hv2
        obtain ⟨c, hc, n, hn, hp⟩ := hnew v hv2
        exact ⟨n, hn, enabled_path.step root c n he1 hc hp⟩


theorem concat_results_cons_some (a : List Nat) (rs : List (Option (List Nat))) :
    concat_results (some a :: rs) = (concat_results rs).map (fun b => a ++ b) := by
  simp [concat_results]

theorem gather_views_fold_acc (s : graph) (fuel : Nat)
    (ih : ∀ root views, gather_views s fuel root views =
      (gather_views s fuel root []).map (fun new => views ++ new)) :
    ∀ (cs : List Nat) (views : List Nat),
      cs.foldlM (fun acc ch => gather_views s fuel ch acc) views =
        (concat_results (cs.map (fun c => gather_views s fuel c []))).map
          (fun new => views ++ new) := by
  intro cs
  induction cs with
  | nil => intro views; simp [concat_results]
  | cons c cs ihcs =>
    intro views
    rw [List.foldlM_cons, ih c views]
    cases hc : gather_views s fuel c [] with
    | none => simp [concat_results, hc]
    | some a =>
      simp only [List.map_cons, hc, concat_results_cons_some, Option.map_some']
      show cs.foldlM (fun acc ch => gather_views s fuel ch acc) (views ++ a) = _
      rw [ihcs (views ++ a)]
      cases concat_results (cs.map (fun c => gather_views s fuel c [])) <;> simp

theorem gather_views_acc (s : graph) :
    ∀ (fuel root : Nat) (views : List Nat),
      gather_views s fuel root views =
        (gather_views s fuel root []).map (fun new => views ++ new) := by
  intro fuel
  induction fuel with
  | zero => intro root views; simp [gather_views]
  | succ fuel ih =>
    intro root views
    unfold gather_views
    by_cases he : (s.node root).enabled = false
    · simp [he]
    · simp only [he, if_false]
      cases hv : node_to_view s root with
      | some view => simp
      | none =>
        simp only
        rw [gather_views_fold_acc s fuel ih _ views, gather_views_fold_acc s fuel ih _ []]
        cases concat_results ((s.node root).children.map (fun c => gather_views s fuel c [])) <;>
          simp

/-- One level of `gather_views`: on an enabled node that corresponds to no
view the result is the concatenation of the results of its children. -/
theorem gather_views_children (s : graph) (fuel root : Nat)
    (he : (s.node root).enabled = true) (hv : node_to_view s root = none) :
    gather_views s (fuel + 1) root [] =
      concat_results ((s.node root).children.map (fun c => gather_views s fuel c [])) := by
  have h := gather_views_fold_acc s fuel (gather_views_acc s fuel) (s.node root).children []
  rw [gather_views]
  simp only [he, hv]
  simp only [Bool.true_eq_false, if_false]
  rw [h]
  cases concat_results ((s.node root).children.map (fun c => gather_views s fuel c [])) <;> simp


/-! ## The reference listing, level by level -/

theorem paths_preorder_ne_nil (s : graph) (d n : Nat) (p : List Nat)
    (hp : p ∈ paths_preorder s d n) : p ≠ [] := by
  cases d with
  | zero => simp [paths_preorder] at hp
  | succ d =>
    simp only [paths_preorder, List.mem_cons, List.mem_flatMap, List.mem_map] at hp
    rcases hp with hp | ⟨c, _, q, _, hq⟩
    · simp [hp]
    · simp [← hq]

theorem recorded_view_cons_disabled (s : graph) (n : Nat) (p : List Nat)
    (he : (s.node n).enabled = false) : recorded_view s (n :: p) = none := by
  cases p with
  | nil => simp [recorded_view, he]
  | cons m rest => simp [recorded_view, he]

theorem recorded_view_cons_view (s : graph) (n v : Nat) (p : List Nat)
    (hv : node_to_view s n = some v) (hp : p ≠ []) : recorded_view s (n :: p) = none := by
  cases p with
  | nil => exact absurd rfl hp
  | cons m rest => simp [recorded_view, hv]

theorem recorded_view_cons_pass (s : graph) (n : Nat) (p : List Nat)
    (he : (s.node n).enabled = true) (hv : node_to_view s n = none) (hp : p ≠ []) :
    recorded_view s (n :: p) = recorded_view s p := by
  cases p with
  | nil => exact absurd rfl hp
  | cons m rest => simp [recorded_view, he, hv]

theorem reference_listing_succ (s : graph) (d n : Nat) :
    reference_listing s (d + 1) n =
      (recorded_view s [n]).toList ++
        (s.node n).children.flatMap (fun c =>
          (paths_preorder s d c).filterMap (fun p => recorded_view s (n :: p))) := by
  simp only [reference_listing, paths_preorder, List.filterMap_cons, List.filterMap_flatMap,
    List.filterMap_map]
  cases recorded_view s [n] <;> rfl

theorem reference_listing_disabled (s : graph) (d n : Nat)
    (he : (s.node n).enabled = false) : reference_listing s (d + 1) n = [] := by
  rw [reference_listing_succ]
  simp [recorded_view_cons_disabled s n _ he]

theorem reference_listing_view (s : graph) (d n v : Nat)
    (he : (s.node n).enabled = true) (hv : node_to_view s n = some v) :
    reference_listing s (d + 1) n = [v] := by
  rw [reference_listing_succ]
  have h1 : recorded_view s [n] = some v := by simp [recorded_view, he, hv]
  have h2 : (s.node n).children.flatMap (fun c =>
      (paths_preorder s d c).filterMap (fun p => recorded_view s (n :: p))) = [] := by
    rw [List.flatMap_eq_nil_iff]
    intro c _
    rw [List.filterMap_eq_nil_iff]
    intro p hp
    exact recorded_view_cons_view s n v p hv (paths_preorder_ne_nil s d c p hp)
  rw [h1, h2]
  rfl

theorem reference_listing_children (s : graph) (d n : Nat)
    (he : (s.node n).enabled = true) (hv : node_to_view s n = none) :
    reference_listing s (d + 1) n = (s.node n).children.flatMap (reference_listing s d) := by
  rw [reference_listing_succ]
  have h1 : recorded_view s [n] = none := by simp [recorded_view, he, hv]
  rw [h1]
  simp only [Option.toList, List.nil_append]
  apply List.flatMap_congr
  intro c _
  unfold reference_listing
  apply List.filterMap_congr
  intro p hp
  exact recorded_view_cons_pass s n p he hv (paths_preorder_ne_nil s d c p hp)

theorem concat_results_map_some (f : Nat → Option (List Nat)) (g : Nat → List Nat) :
    ∀ cs : List Nat, (∀ c ∈ cs, f c = some (g c)) →
      concat_results (cs.map f) = some (cs.flatMap g) := by
  intro cs
  induction cs with
  | nil => intro _; simp [concat_results]
  | cons c cs ih =>
    intro h
    have hc : f c = some (g c) := h c (by simp)
    have hcs := ih (fun x hx => h x (by simp [hx]))
    simp [concat_results, hc, hcs]

/-- On a finite subtree `gather_views` returns the reference listing. -/
theorem gather_views_eq_reference (s : graph) :
    ∀ (d n : Nat), finite_below s d n = true →
      gather_views s d n [] = some (reference_listing s d n) := by
  intro d
  induction d with
  | zero => intro n h; simp [finite_below] at h
  | succ d ih =>
    intro n h
    simp only [finite_below, List.all_eq_true] at h
    by_cases he : (s.node n).enabled = true
    · cases hv : node_to_view s n with
      | some v =>
        rw [reference_listing_view s d n v he hv]
        simp [gather_views, he, hv]
      | none =>
        rw [reference_listing_children s d n he hv, gather_views_children s d n he hv]
        exact concat_results_map_some _ _ _ (fun c hc => ih c (h c hc))
    · have he0 : (s.node n).enabled = false := by simpa using he
      rw [reference_listing_disabled s d n he0]
      simp [gather_views, he0]

theorem flatMap_sublist_views (s : graph) (f g : Nat → List Nat) :
    ∀ cs : List Nat,
      (∀ c ∈ cs, ∃ ns : List Nat, ns.Sublist (f c) ∧
        ns.map (node_to_view s) = (g c).map some) →
      ∃ ns : List Nat, ns.Sublist (cs.flatMap f) ∧
        ns.map (node_to_view s) = (cs.flatMap g).map some := by
  intro cs
  induction cs with
  | nil => intro _; exact ⟨[], by simp, by simp⟩
  | cons c cs ih =>
    intro h
    obtain ⟨n1, hs1, hm1⟩ := h c (by simp)
    obtain ⟨n2, hs2, hm2⟩ := ih (fun x hx => h x (by simp [hx]))
    refine ⟨n1 ++ n2, ?_, ?_⟩
    · rw [List.flatMap_cons]
      exact List.Sublist.append hs1 hs2
    · simp [List.flatMap_cons, hm1, hm2]

/-- The views of the reference listing are the views of a sub-listing of the
pre-order listing of the nodes. -/
theorem reference_listing_nodes (s : graph) :
    ∀ (d n : Nat), ∃ ns : List Nat, ns.Sublist (nodes_preorder s d n) ∧
      ns.map (node_to_view s) = (reference_listing s d n).map some := by
  intro d
  induction d with
  | zero => intro n; exact ⟨[], by simp, by simp [reference_listing, paths_preorder]⟩
  | succ d ih =>
    intro n
    by_cases he : (s.node n).enabled = true
    · cases hv : node_to_view s n with
      | some v =>
        rw [reference_listing_view s d n v he hv]
        exact ⟨[n], by simp [nodes_preorder], by simp [hv]⟩
      | none =>
        rw [reference_listing_children s d n he hv]
        obtain ⟨ns, hs, hm⟩ := flatMap_sublist_views s (nodes_preorder s d)
          (reference_listing s d) (s.node n).children (fun c _ => ih c)
        exact ⟨ns, by simpa [nodes_preorder] using List.Sublist.cons n hs, hm⟩
    · have he0 : (s.node n).enabled = false := by simpa using he
      rw [reference_listing_disabled s d n he0]
      exact ⟨[], by simp, by simp⟩

theorem reference_listing_nodup (s : graph) (d n : Nat)
    (htree : (nodes_preorder s d n).Nodup)
    (hinj : ∀ a ∈ nodes_preorder s d n, ∀ b ∈ nodes_preorder s d n,
      node_to_view s a ≠ none → node_to_view s a = node_to_view s b → a = b) :
    (reference_listing s d n).Nodup := by
  obtain ⟨ns, hs, hm⟩ := reference_listing_nodes s d n
  have hns : ns.Nodup := List.Nodup.sublist hs htree
  have hsome : ∀ x ∈ ns, node_to_view s x ≠ none := by
    intro x hx
    have : node_to_view s x ∈ ns.map (node_to_view s) := List.mem_map_of_mem _ hx
    rw [hm, List.mem_map] at this
    obtain ⟨v, _, hv⟩ := this
    rw [← hv]
    simp
  have hmap : (ns.map (node_to_view s)).Nodup := by
    apply List.Nodup.map_on _ hns
    intro x hx y hy hxy
    exact hinj x (hs.subset hx) y (hs.subset hy) (hsome x hx) hxy
  rw [hm] at hmap
  exact List.Nodup.of_map _ hmap


theorem finite_below_succ (s : graph) :
    ∀ (d n : Nat), finite_below s d n = true → finite_below s (d + 1) n = true := by
  intro d
  induction d with
  | zero => intro n h; simp [finite_below] at h
  | succ d ih =>
    intro n h
    simp only [finite_below, List.all_eq_true] at h
    rw [finite_below, List.all_eq_true]
    exact fun c hc => ih c (h c hc)

theorem paths_preorder_succ (s : graph) :
    ∀ (d n : Nat), finite_below s d n = true →
      paths_preorder s (d + 1) n = paths_preorder s d n := by
  intro d
  induction d with
  | zero => intro n h; simp [finite_below] at h
  | succ d ih =>
    intro n h
    simp only [finite_below, List.all_eq_true] at h
    rw [paths_preorder, paths_preorder]
    congr 1
    apply List.flatMap_congr
    intro c hc
    rw [ih c (h c hc)]

/-- On a finite subtree the reference listing does not depend on the depth
bound. -/
theorem reference_listing_add (s : graph) (d n : Nat) (h : finite_below s d n = true) :
    ∀ e, finite_below s (d + e) n = true ∧
      reference_listing s (d + e) n = reference_listing s d n := by
  intro e
  induction e with
  | zero => exact ⟨h, rfl⟩
  | succ e ih =>
    refine ⟨finite_below_succ s (d + e) n ih.1, ?_⟩
    rw [← ih.2]
    unfold reference_listing
    rw [show d + (e + 1) = (d + e) + 1 by omega, paths_preorder_succ s (d + e) n ih.1]

/-! ## Claims on view collection -/

theorem enabled_path_end (s : graph) (a b : Nat) (h : enabled_path s a b) :
    (s.node b).enabled = true := by
  induction h with
  | here n he => exact he
  | step a c b _ _ _ ih => exact ih

theorem collect_views_total (s : graph) (d root : Nat) (h : finite_below s d root = true) :
    collect_views_from_scenegraph s d root = some (reference_listing s d root) :=
  gather_views_eq_reference s d root h

/-- C1: whatever the shape of the graph, every view returned by
`collect_views_from_scenegraph(root)` is the view of an enabled node that is
joined to `root` by a chain of child links on which every node, `root`
included, is enabled; a disabled `root` yields the empty sequence whatever
lies below it; and on a finite subtree the call does return. -/
theorem collect_views_skips_disabled (s : graph) (root : Nat) :
    (∀ fuel out, collect_views_from_scenegraph s fuel root = some out →
      ∀ v ∈ out, ∃ n, node_to_view s n = some v ∧ (s.node n).enabled = true ∧
        enabled_path s root n) ∧
    ((s.node root).enabled = false →
      ∀ fuel, collect_views_from_scenegraph s (fuel + 1) root = some []) ∧
    (∀ d, finite_below s d root = true →
      ∃ out, collect_views_from_scenegraph s d root = some out) := by
  refine ⟨?_, ?_, ?_⟩
  · intro fuel out h v hv
    obtain ⟨new, hout, hnew⟩ := gather_views_sound s fuel root [] out h
    simp only [List.nil_append] at hout
    subst hout
    obtain ⟨n, hn, hp⟩ := hnew v hv
    exact ⟨n, hn, enabled_path_end s root n hp, hp⟩
  · intro he fuel
    simp [collect_views_from_scenegraph, gather_views, he]
  · intro d h
    exact ⟨_, collect_views_total s d root h⟩

/-- In the example scene the walk from the root returns the views 30, 50 and
60, each below enabled nodes only, and the walk from the disabled node 7
returns nothing although its child 9 is an enabled view node. -/
theorem collect_views_skips_disabled_witness :
    (∀ v ∈ [30, 50, 60], ∃ n, node_to_view example_graph n = some v ∧
      (example_graph.node n).enabled = true ∧ enabled_path example_graph 0 n) ∧
    collect_views_from_scenegraph example_graph 1 7 = some [] ∧
    (∃ out, collect_views_from_scenegraph example_graph 4 0 = some out) :=
  ⟨(collect_views_skips_disabled example_graph 0).1 4 [30, 50, 60] (by decide),
   (collect_views_skips_disabled example_graph 7).2.1 (by decide) 0,
   (collect_views_skips_disabled example_graph 0).2.2 4 (by decide)⟩

/-- C2, as amended: on a finite subtree `collect_views_from_scenegraph(root)`
is the reference pre-order listing (the views at the ends of the chains from
`root` whose nodes are all enabled and, the end apart, correspond to no view,
in depth-first pre-order along the stored child order), and more fuel does
not change the result; an enabled node that corresponds to a view yields that
view alone, whatever its subtree holds; and when no node below `root` is
reached twice and no two nodes below `root` correspond to the same view, no
view is listed twice. -/
theorem collect_views_eq_reference (s : graph) (d root : Nat)
    (hfin : finite_below s d root = true) :
    collect_views_from_scenegraph s d root = some (reference_listing s d root) ∧
    (∀ e, collect_views_from_scenegraph s (d + e) root = some (reference_listing s d root)) ∧
    (∀ v, (s.node root).enabled = true → node_to_view s root = some v →
      collect_views_from_scenegraph s d root = some [v]) ∧
    ((nodes_preorder s d root).Nodup →
      (∀ a ∈ nodes_preorder s d root, ∀ b ∈ nodes_preorder s d root,
        node_to_view s a ≠ none → node_to_view s a = node_to_view s b → a = b) →
      ∀ out, collect_views_from_scenegraph s d root = some out → out.Nodup) := by
  refine ⟨collect_views_total s d root hfin, ?_, ?_, ?_⟩
  · intro e
    obtain ⟨h1, h2⟩ := reference_listing_add s d root hfin e
    rw [collect_views_total s (d + e) root h1, h2]
  · intro v he hv
    cases d with
    | zero => simp [finite_below] at hfin
    | succ d => simp [collect_views_from_scenegraph, gather_views, he, hv]
  · intro htree hinj out hout
    rw [collect_views_total s d root hfin] at hout
    cases hout
    exact reference_listing_nodup s d root htree hinj

/-- In the example scene the listing from the root is 30, 50, 60: view 80
sits below the node of view 30 and view 90 below the disabled node 7.  No
node is reached twice and the view nodes carry different views, so the
listing has no repetition. -/
theorem collect_views_eq_reference_witness :
    collect_views_from_scenegraph example_graph 4 0 = some [30, 50, 60] ∧
    collect_views_from_scenegraph example_graph 2 3 = some [30] ∧
    [30, 50, 60].Nodup :=
  ⟨(collect_views_eq_reference example_graph 4 0 (by decide)).1,
   (collect_views_eq_reference example_graph 2 3 (by decide)).2.2.1 30 (by decide)
      (by decide),
   (collect_views_eq_reference example_graph 4 0 (by decide)).2.2.2 (by decide) (by decide)
      [30, 50, 60] (by decide)⟩

/-- C2 as stated fails on a tree in which two nodes correspond to the same
view: the root 0 of the twin scene has the enabled children 1 and 2, both
nodes of view 30, and the listing is 30, 30. -/
theorem collect_views_twin_nodes :
    finite_below twin_graph 2 0 = true ∧
    (nodes_preorder twin_graph 2 0).Nodup ∧
    collect_views_from_scenegraph twin_graph 2 0 = some [30, 30] ∧
    ¬ ([30, 30] : List Nat).Nodup := by
  decide

theorem collect_views_from_output_eq (s : graph) (fuel : Nat) (output : output_t)
    (layers : List Nat) :
    collect_views_from_output s fuel output layers =
      concat_results (layers.map (fun l =>
        collect_views_from_scenegraph s fuel (output.node_for_layer l))) := by
  have h := gather_views_fold_acc s fuel (gather_views_acc s fuel)
    (layers.map output.node_for_layer) []
  unfold collect_views_from_output collect_views_from_scenegraph
  rw [List.foldlM_map, List.map_map] at h
  rw [h]
  simp only [Function.comp_def, List.nil_append]
  generalize concat_results _ = r
  cases r <;> rfl

theorem concat_results_forall₂ (f : Nat → Option (List Nat)) :
    ∀ (ls : List Nat) (vss : List (List Nat)),
      List.Forall₂ (fun l vs => f l = some vs) ls vss →
      concat_results (ls.map f) = some vss.flatten := by
  intro ls vss h
  induction h with
  | nil => simp [concat_results]
  | cons hl _ ih => simp [concat_results, hl, ih]

/-- C3: `collect_views_from_output(output, [l1, ..., ln])` is the
concatenation, in the order of the list as the caller wrote it, of
`collect_views_from_scenegraph(node_for_layer(li))`; for `[l1, l0]` the views
of `l1` come before those of `l0`; and on finite layer subtrees the call
returns the concatenation of the reference listings. -/
theorem collect_views_from_output_concat (s : graph) (fuel : Nat) (output : output_t) :
    (∀ (layers : List Nat) (vss : List (List Nat)),
      List.Forall₂ (fun l vs =>
        collect_views_from_scenegraph s fuel (output.node_for_layer l) = some vs) layers vss →
      collect_views_from_output s fuel output layers = some vss.flatten) ∧
    (∀ l1 l0 v1 v0,
      collect_views_from_scenegraph s fuel (output.node_for_layer l1) = some v1 →
      collect_views_from_scenegraph s fuel (output.node_for_layer l0) = some v0 →
      collect_views_from_output s fuel output [l1, l0] = some (v1 ++ v0)) ∧
    (∀ layers : List Nat,
      (∀ l ∈ layers, finite_below s fuel (output.node_for_layer l) = true) →
      collect_views_from_output s fuel output layers =
        some (layers.flatMap (fun l => reference_listing s fuel (output.node_for_layer l)))) := by
  refine ⟨?_, ?_, ?_⟩
  · intro layers vss h
    rw [collect_views_from_output_eq]
    exact concat_results_forall₂ _ layers vss h
  · intro l1 l0 v1 v0 h1 h0
    rw [collect_views_from_output_eq]
    simp [concat_results, h1, h0]
  · intro layers h
    rw [collect_views_from_output_eq]
    exact concat_results_map_some _ _ layers
      (fun l hl => collect_views_total s fuel _ (h l hl))

/-- In the example scene, asking for layer 1 and then layer 0 lists the views
of layer 1 first, and a repeated layer is listed again. -/
theorem collect_views_from_output_concat_witness :
    collect_views_from_output example_graph 3 example_output [1, 0] = some ([50, 60] ++ [30]) ∧
    collect_views_from_output example_graph 3 example_output [0, 1, 0] =
      some [30, 50, 60, 30] :=
  ⟨(collect_views_from_output_concat example_graph 3 example_output).2.1 1 0 [50, 60] [30]
      (by decide) (by decide),
   (collect_views_from_output_concat example_graph 3 example_output).2.2 [0, 1, 0]
      (by decide)⟩


/-! ## Parent chains -/

theorem ancestor_succ_of_parent (s : graph) (k n p : Nat) (h : (s.node n).parent = some p) :
    ancestor s (k + 1) n = ancestor s k p := by
  simp [ancestor, h]

theorem ancestor_add (s : graph) :
    ∀ (i m n : Nat), ancestor s (i + m) n = (ancestor s i n).bind (ancestor s m) := by
  intro i
  induction i with
  | zero => intro m n; simp [ancestor]
  | succ i ih =>
    intro m n
    rw [show i + 1 + m = (i + m) + 1 by omega]
    cases hp : (s.node n).parent with
    | none => simp [ancestor, hp]
    | some p => simp [ancestor, hp, ih]

theorem ancestor_succ_right (s : graph) (i n x : Nat) (h : ancestor s i n = some x) :
    ancestor s (i + 1) n = (s.node x).parent := by
  rw [ancestor_add, h]
  cases hp : (s.node x).parent <;> simp [ancestor, hp]

theorem ancestor_past_end (s : graph) (t : Nat) (ht : (s.node t).parent = none) (m : Nat) :
    ancestor s (m + 1) t = none := by
  simp [ancestor, ht]

/-- On a finite parent chain a node occurs at one position only. -/
theorem ancestor_index_unique (s : graph) (n k i j x : Nat) (hk : chain_ends s n k)
    (hi : ancestor s i n = some x) (hj : ancestor s j n = some x) : i = j := by
  obtain ⟨t, htk, ht⟩ := hk
  have key : ∀ a b : Nat, a < b → ancestor s a n = some x → ancestor s b n = some x → False := by
    intro a b hab ha hb
    have hbk : b ≤ k := by
      by_contra hlt
      have h1 : ancestor s b n = none := by
        rw [show b = k + ((b - k - 1) + 1) by omega, ancestor_add, htk]
        exact ancestor_past_end s t ht _
      rw [h1] at hb
      cases hb
    have h2 : ancestor s (k - b) x = some t := by
      have := ancestor_add s b (k - b) n
      rw [show b + (k - b) = k by omega, htk, hb] at this
      simpa using this.symm
    have h3 : ancestor s (k - a) x = some t := by
      have := ancestor_add s a (k - a) n
      rw [show a + (k - a) = k by omega, htk, ha] at this
      simpa using this.symm
    have h4 : ancestor s (k - a) x = none := by
      rw [show k - a = (k - b) + ((b - a - 1) + 1) by omega, ancestor_add, h2]
      exact ancestor_past_end s t ht _
    rw [h4] at h3
    cases h3
  rcases Nat.lt_trichotomy i j with h | h | h
  · exact (key i j h hi hj).elim
  · exact h
  · exact (key j i h hj hi).elim


/-! ## Properties of `get_view_layer` -/

theorem find_layer_from_some (s : graph) (node : Nat) :
    ∀ (r i L : Nat), find_layer_from s node r i = some L →
      i ≤ L ∧ L < i + r ∧ node = s.layers L := by
  intro r
  induction r with
  | zero => intro i L h; simp [find_layer_from] at h
  | succ r ih =>
    intro i L h
    unfold find_layer_from at h
    by_cases hn : node = s.layers i
    · simp only [hn, if_true, Option.some.injEq] at h
      subst h
      exact ⟨le_refl _, by omega, hn⟩
    · simp only [hn, if_false] at h
      obtain ⟨h1, h2, h3⟩ := ih (i + 1) L h
      exact ⟨by omega, by omega, h3⟩

theorem find_layer_from_none (s : graph) (node : Nat) :
    ∀ (r i : Nat), (∀ L, i ≤ L → L < i + r → node ≠ s.layers L) →
      find_layer_from s node r i = none := by
  intro r
  induction r with
  | zero => intro i _; simp [find_layer_from]
  | succ r ih =>
    intro i h
    unfold find_layer_from
    have hn : node ≠ s.layers i := h i (le_refl _) (by omega)
    simp only [hn, if_false]
    exact ih (i + 1) (fun L h1 h2 => h L (by omega) (by omega))

theorem find_layer_from_first (s : graph) (node L : Nat) (hL : node = s.layers L) :
    ∀ (r i : Nat), i ≤ L → L < i + r → (∀ j, i ≤ j → j < L → node ≠ s.layers j) →
      find_layer_from s node r i = some L := by
  intro r
  induction r with
  | zero => intro i h1 h2 _; omega
  | succ r ih =>
    intro i h1 h2 h
    unfold find_layer_from
    by_cases hi : i = L
    · subst hi
      simp [hL]
    · have hn : node ≠ s.layers i := h i (le_refl _) (by omega)
      simp only [hn, if_false]
      exact ih (i + 1) (by omega) (by omega) (fun j hj1 hj2 => h j (by omega) hj2)

theorem find_layer_of_distinct (s : graph) (L : Nat) (hL : L < s.ALL_LAYERS)
    (hdist : ∀ i j, i < s.ALL_LAYERS → j < s.ALL_LAYERS → s.layers i = s.layers j → i = j) :
    find_layer s (s.layers L) = some L := by
  apply find_layer_from_first s (s.layers L) L rfl s.ALL_LAYERS 0 (Nat.zero_le _) (by omega)
  intro j _ hj heq
  have := hdist L j hL (by omega) heq
  omega

theorem get_view_layer_loop_none (s : graph) :
    ∀ (k n : Nat), chain_ends s n k →
      (∀ i m, ancestor s i n = some m → (s.node m).parent = some s.root →
        find_layer s m = none) →
      ∀ fuel, k < fuel → get_view_layer_loop s fuel n = some none := by
  intro k
  induction k with
  | zero =>
    intro n hk _ fuel hf
    obtain ⟨t, ht, htp⟩ := hk
    simp only [ancestor, Option.some.injEq] at ht
    subst ht
    obtain ⟨f, rfl⟩ : ∃ f, fuel = f + 1 := ⟨fuel - 1, by omega⟩
    simp [get_view_layer_loop, htp]
  | succ k ih =>
    intro n hk hno fuel hf
    obtain ⟨t, ht, htp⟩ := hk
    obtain ⟨f, rfl⟩ : ∃ f, fuel = f + 1 := ⟨fuel - 1, by omega⟩
    cases hp : (s.node n).parent with
    | none => simp [ancestor, hp] at ht
    | some p =>
      rw [ancestor_succ_of_parent s k n p hp] at ht
      have hrec : get_view_layer_loop s f p = some none := by
        apply ih p ⟨t, ht, htp⟩ _ f (by omega)
        intro i m hm hmp
        exact hno (i + 1) m (by rw [ancestor_succ_of_parent s i n p hp]; exact hm) hmp
      unfold get_view_layer_loop
      simp only [hp]
      by_cases hr : p = s.root
      · have hfl : find_layer s n = none := hno 0 n rfl (by rw [hp, hr])
        simp only [hr, if_true, hfl]
        rw [← hr]
        exact hrec
      · simp only [hr, if_false]
        exact hrec

theorem get_view_layer_loop_some (s : graph) (a L : Nat)
    (hpar : (s.node a).parent = some s.root) (hfl : find_layer s a = some L) :
    ∀ (j n : Nat), ancestor s j n = some a →
      (∀ i m, i < j → ancestor s i n = some m → (s.node m).parent ≠ some s.root) →
      ∀ fuel, j < fuel → get_view_layer_loop s fuel n = some (some L) := by
  intro j
  induction j with
  | zero =>
    intro n hn _ fuel hf
    simp only [ancestor, Option.some.injEq] at hn
    subst hn
    obtain ⟨f, rfl⟩ : ∃ f, fuel = f + 1 := ⟨fuel - 1, by omega⟩
    simp [get_view_layer_loop, hpar, hfl]
  | succ j ih =>
    intro n hn hno fuel hf
    obtain ⟨f, rfl⟩ : ∃ f, fuel = f + 1 := ⟨fuel - 1, by omega⟩
    cases hp : (s.node n).parent with
    | none => simp [ancestor, hp] at hn
    | some p =>
      rw [ancestor_succ_of_parent s j n p hp] at hn
      have hr : p ≠ s.root := by
        intro hr
        exact hno 0 n (by omega) rfl (by rw [hp, hr])
      unfold get_view_layer_loop
      simp only [hp, hr, if_false]
      apply ih p hn _ f (by omega)
      intro i m hi hm
      exact hno (i + 1) m (by omega) (by rw [ancestor_succ_of_parent s i n p hp]; exact hm)

theorem get_view_layer_loop_layer (s : graph) :
    ∀ (fuel n L : Nat), get_view_layer_loop s fuel n = some (some L) →
      ∃ j a, ancestor s j n = some a ∧ (s.node a).parent = some s.root ∧
        s.layers L = a ∧ L < s.ALL_LAYERS := by
  intro fuel
  induction fuel with
  | zero => intro n L h; simp [get_view_layer_loop] at h
  | succ f ih =>
    intro n L h
    unfold get_view_layer_loop at h
    cases hp : (s.node n).parent with
    | none => simp [hp] at h
    | some p =>
      simp only [hp] at h
      have hrec : get_view_layer_loop s f p = some (some L) →
          ∃ j a, ancestor s j n = some a ∧ (s.node a).parent = some s.root ∧
            s.layers L = a ∧ L < s.ALL_LAYERS := by
        intro h2
        obtain ⟨j, a, h3, h4⟩ := ih p L h2
        exact ⟨j + 1, a, by rw [ancestor_succ_of_parent s j n p hp]; exact h3, h4⟩
      by_cases hr : p = s.root
      · simp only [hr, if_true] at h
        cases hfl : find_layer s n with
        | none =>
          simp only [hfl] at h
          exact hrec (by rw [hr]; exact h)
        | some i =>
          simp only [hfl, Option.some.injEq] at h
          subst h
          obtain ⟨_, h2, h3⟩ := find_layer_from_some s n _ _ _ hfl
          exact ⟨0, n, rfl, by rw [hp, hr], h3.symm, by omega⟩
      · simp only [hr, if_false] at h
        exact hrec h

/-- On a finite parent chain at most one node has the graph root as its
parent. -/
theorem below_root_unique (s : graph) (n k i j a b : Nat) (hk : chain_ends s n k)
    (ha : ancestor s i n = some a) (hap : (s.node a).parent = some s.root)
    (hb : ancestor s j n = some b) (hbp : (s.node b).parent = some s.root) :
    i = j ∧ a = b := by
  have h1 : ancestor s (i + 1) n = some s.root := by
    rw [ancestor_succ_right s i n a ha, hap]
  have h2 : ancestor s (j + 1) n = some s.root := by
    rw [ancestor_succ_right s j n b hb, hbp]
  have hij : i = j := by
    have := ancestor_index_unique s n k (i + 1) (j + 1) s.root hk h1 h2
    omega
  subst hij
  rw [ha] at hb
  exact ⟨rfl, by simpa using hb⟩


theorem chain_end_unique (s : graph) (n k k2 t t2 : Nat)
    (h1 : ancestor s k n = some t) (ht : (s.node t).parent = none)
    (h2 : ancestor s k2 n = some t2) (ht2 : (s.node t2).parent = none) : t = t2 := by
  have key : ∀ a b x y : Nat, a < b → ancestor s a n = some x → (s.node x).parent = none →
      ancestor s b n = some y → False := by
    intro a b x y hab ha hx hb
    rw [show b = a + ((b - a - 1) + 1) by omega, ancestor_add, ha] at hb
    rw [Option.some_bind, ancestor_past_end s x hx] at hb
    cases hb
  rcases Nat.lt_trichotomy k k2 with h | h | h
  · exact (key k k2 t t2 h h1 ht h2).elim
  · subst h
    rw [h1] at h2
    simpa using h2
  · exact (key k2 k t2 t h h2 ht2 h1).elim

theorem get_view_layer_loop_total (s : graph) :
    ∀ (k n : Nat), chain_ends s n k →
      ∀ fuel, k < fuel → ∃ r, get_view_layer_loop s fuel n = some r := by
  intro k
  induction k with
  | zero =>
    intro n hk fuel hf
    obtain ⟨t, ht, htp⟩ := hk
    simp only [ancestor, Option.some.injEq] at ht
    subst ht
    obtain ⟨f, rfl⟩ : ∃ f, fuel = f + 1 := ⟨fuel - 1, by omega⟩
    exact ⟨none, by simp [get_view_layer_loop, htp]⟩
  | succ k ih =>
    intro n hk fuel hf
    obtain ⟨t, ht, htp⟩ := hk
    obtain ⟨f, rfl⟩ : ∃ f, fuel = f + 1 := ⟨fuel - 1, by omega⟩
    cases hp : (s.node n).parent with
    | none => simp [ancestor, hp] at ht
    | some p =>
      rw [ancestor_succ_of_parent s k n p hp] at ht
      obtain ⟨r, hr⟩ := ih p ⟨t, ht, htp⟩ f (by omega)
      unfold get_view_layer_loop
      simp only [hp]
      by_cases hroot : p = s.root
      · simp only [hroot, if_true]
        cases find_layer s n with
        | none => exact ⟨r, by rw [← hroot]; exact hr⟩
        | some i => exact ⟨some i, rfl⟩
      · simp only [hroot, if_false]
        exact ⟨r, hr⟩

/-- C4: on a finite (hence acyclic) parent chain, with pairwise distinct
layer nodes, if some ancestor-or-self `a` of the root node of the view has the
graph root as its parent and is the layer node of identifier `L`, then
`get_view_layer(view)` returns `L`, however many links `j` separate the view
from `a`. -/
theorem get_view_layer_nested (s : graph) (view : view_interface_t) (k j a L : Nat)
    (hfin : chain_ends s view.root_node k)
    (hdist : ∀ i i2, i < s.ALL_LAYERS → i2 < s.ALL_LAYERS → s.layers i = s.layers i2 → i = i2)
    (ha : ancestor s j view.root_node = some a)
    (hpar : (s.node a).parent = some s.root)
    (hL : L < s.ALL_LAYERS) (haL : s.layers L = a) :
    ∀ fuel, j < fuel → get_view_layer s fuel view = some (some L) := by
  intro fuel hf
  subst haL
  apply get_view_layer_loop_some s (s.layers L) L hpar (find_layer_of_distinct s L hL hdist)
    j view.root_node ha _ fuel hf
  intro i m hi hm hmp
  have := (below_root_unique s view.root_node k i j m (s.layers L) hfin hm hmp ha hpar).1
  omega

/-- In the layered example the view node 6 lies two floating containers deep
under the node of layer 2, and its view is reported in layer 2. -/
theorem get_view_layer_nested_witness :
    get_view_layer layered_graph 4 ⟨60, 6, none⟩ = some (some 2) :=
  get_view_layer_nested layered_graph ⟨60, 6, none⟩ 4 3 3 2 ⟨0, by decide, by decide⟩
    (by intro i i2 _ _ h; simpa [layered_graph] using h) (by decide) (by decide) (by decide)
    (by decide) 4 (by decide)

/-- C5: `get_view_layer(view)` returns the empty optional when the root node
of the view has no parent, when its finite parent chain ends at a parentless
node other than the (parentless) graph root, and when the ancestor whose
parent is the graph root is none of the layer nodes; a layer is returned only
for a node whose parent is the graph root; and on a finite parent chain the
call does return. -/
theorem get_view_layer_no_layer (s : graph) (view : view_interface_t) :
    ((s.node view.root_node).parent = none →
      ∀ fuel, get_view_layer s (fuel + 1) view = some none) ∧
    (∀ k t, ancestor s k view.root_node = some t → (s.node t).parent = none →
      t ≠ s.root → (s.node s.root).parent = none →
      ∀ fuel, k < fuel → get_view_layer s fuel view = some none) ∧
    (∀ k j a, chain_ends s view.root_node k → ancestor s j view.root_node = some a →
      (s.node a).parent = some s.root → (∀ i, i < s.ALL_LAYERS → s.layers i ≠ a) →
      ∀ fuel, k < fuel → get_view_layer s fuel view = some none) ∧
    (∀ fuel L, get_view_layer s fuel view = some (some L) →
      ∃ j a, ancestor s j view.root_node = some a ∧ (s.node a).parent = some s.root ∧
        s.layers L = a ∧ L < s.ALL_LAYERS) ∧
    (∀ k, chain_ends s view.root_node k →
      ∀ fuel, k < fuel → ∃ r, get_view_layer s fuel view = some r) := by
  refine ⟨?_, ?_, ?_, ?_, ?_⟩
  · intro hp fuel
    simp [get_view_layer, get_view_layer_loop, hp]
  · intro k t hk ht hne hroot fuel hf
    apply get_view_layer_loop_none s k view.root_node ⟨t, hk, ht⟩ _ fuel hf
    intro i m hm hmp
    have h1 : ancestor s (i + 1) view.root_node = some s.root := by
      rw [ancestor_succ_right s i _ m hm, hmp]
    exact absurd (chain_end_unique s _ k (i + 1) t s.root hk ht h1 hroot) hne
  · intro k j a hfin ha hap hno fuel hf
    apply get_view_layer_loop_none s k view.root_node hfin _ fuel hf
    intro i m hm hmp
    have hma : m = a := (below_root_unique s _ k i j m a hfin hm hmp ha hap).2
    subst hma
    apply find_layer_from_none
    intro L _ hL heq
    exact hno L (by omega) heq.symm
  · intro fuel L h
    exact get_view_layer_loop_layer s fuel view.root_node L h
  · intro k hk fuel hf
    exact get_view_layer_loop_total s k view.root_node hk fuel hf

/-- In the layered example: node 7 has no parent, node 8 lies in the detached
subtree of node 7, node 10 lies under node 9, which is a child of the root but
no layer node; none of their views has a layer.  The layer found for node 6
is that of its ancestor under the graph root. -/
theorem get_view_layer_no_layer_witness :
    get_view_layer layered_graph 1 ⟨70, 7, none⟩ = some none ∧
    get_view_layer layered_graph 2 ⟨80, 8, none⟩ = some none ∧
    get_view_layer layered_graph 3 ⟨100, 10, none⟩ = some none ∧
    (∃ j a, ancestor layered_graph j 6 = some a ∧
      (layered_graph.node a).parent = some layered_graph.root ∧
      layered_graph.layers 2 = a ∧ 2 < layered_graph.ALL_LAYERS) ∧
    (∃ r, get_view_layer layered_graph 5 ⟨60, 6, none⟩ = some r) :=
  ⟨(get_view_layer_no_layer layered_graph ⟨70, 7, none⟩).1 (by decide) 0,
   (get_view_layer_no_layer layered_graph ⟨80, 8, none⟩).2.1 1 7 (by decide) (by decide)
      (by decide) (by decide) 2 (by decide),
   (get_view_layer_no_layer layered_graph ⟨100, 10, none⟩).2.2.1 2 1 9
      ⟨0, by decide, by decide⟩ (by decide) (by decide)
      (by intro i hi h; simp [layered_graph] at h hi; omega) 3 (by decide),
   (get_view_layer_no_layer layered_graph ⟨60, 6, none⟩).2.2.2.1 4 2 (by decide),
   (get_view_layer_no_layer layered_graph ⟨60, 6, none⟩).2.2.2.2 4
      ⟨0, by decide, by decide⟩ 5 (by decide)⟩


/-! ## Properties of `view_bring_to_front` -/

theorem same_frame_refl (s : graph) : same_frame s s :=
  ⟨fun _ => rfl, fun _ => rfl, fun _ => rfl, fun _ => rfl, fun _ => rfl, fun _ => rfl,
    rfl, rfl, rfl⟩

theorem same_frame_trans (s2 s1 s : graph) (h2 : same_frame s2 s1) (h1 : same_frame s1 s) :
    same_frame s2 s :=
  ⟨fun m => (h2.parent m).trans (h1.parent m), fun m => (h2.enabled m).trans (h1.enabled m),
    fun m => (h2.view m).trans (h1.view m),
    fun m => (h2.structure_node m).trans (h1.structure_node m),
    fun m => (h2.floating_inner m).trans (h1.floating_inner m),
    fun m => (h2.bounding_box m).trans (h1.bounding_box m),
    h2.root.trans h1.root, h2.all_layers.trans h1.all_layers, h2.layers.trans h1.layers⟩

theorem raise_to_front_frame (s : graph) (n : Nat) : same_frame (raise_to_front s n) s := by
  unfold raise_to_front
  cases hp : (s.node n).parent with
  | none => exact same_frame_refl s
  | some p =>
    refine ⟨?_, ?_, ?_, ?_, ?_, ?_, rfl, rfl, rfl⟩ <;>
    · intro m
      by_cases hm : m = p
      · subst hm; simp
      · simp [hm]

theorem raise_to_front_damage (s : graph) (n : Nat) : (raise_to_front s n).damage = s.damage := by
  unfold raise_to_front
  cases (s.node n).parent <;> rfl

theorem raise_to_front_children_parent (s : graph) (n p : Nat)
    (hp : (s.node n).parent = some p) :
    ((raise_to_front s n).node p).children =
      n :: (s.node p).children.filter (fun c => c ≠ n) := by
  simp [raise_to_front, hp]

theorem raise_to_front_children_other (s : graph) (n p q : Nat)
    (hp : (s.node n).parent = some p) (hq : q ≠ p) :
    ((raise_to_front s n).node q).children = (s.node q).children := by
  simp [raise_to_front, hp, hq]

theorem ancestor_congr (s1 s : graph) (h : same_frame s1 s) :
    ∀ (k n : Nat), ancestor s1 k n = ancestor s k n := by
  intro k
  induction k with
  | zero => intro n; rfl
  | succ k ih =>
    intro n
    simp only [ancestor, h.parent n]
    cases (s.node n).parent with
    | none => rfl
    | some p => exact ih p

theorem qualifying_step_congr (s1 s : graph) (h : same_frame s1 s) (n p : Nat) :
    qualifying_step s1 n p ↔ qualifying_step s n p := by
  unfold qualifying_step
  rw [h.parent n, h.structure_node n, h.floating_inner p]

theorem chain_ends_congr (s1 s : graph) (h : same_frame s1 s) (n k : Nat)
    (hk : chain_ends s n k) : chain_ends s1 n k := by
  obtain ⟨t, ht, htp⟩ := hk
  exact ⟨t, by rw [ancestor_congr s1 s h]; exact ht, by rw [h.parent t]; exact htp⟩

theorem chain_ends_parent (s : graph) (n p k : Nat) (hp : (s.node n).parent = some p)
    (hk : chain_ends s n (k + 1)) : chain_ends s p k := by
  obtain ⟨t, ht, htp⟩ := hk
  rw [ancestor_succ_of_parent s k n p hp] at ht
  exact ⟨t, ht, htp⟩

theorem chain_ends_has_parent (s : graph) (n k : Nat) (hk : chain_ends s n (k + 1)) :
    ∃ p, (s.node n).parent = some p := by
  obtain ⟨t, ht, _⟩ := hk
  cases hp : (s.node n).parent with
  | none => simp [ancestor, hp] at ht
  | some p => exact ⟨p, rfl⟩

/-- On a finite parent chain no node above `p` (or `p` itself) has `p` as its
parent. -/
theorem not_parent_of_ancestor (s : graph) (p k i m : Nat) (hk : chain_ends s p k)
    (hm : ancestor s i p = some m) : (s.node m).parent ≠ some p := by
  intro hmp
  have h1 : ancestor s (i + 1) p = some p := by rw [ancestor_succ_right s i p m hm, hmp]
  have := ancestor_index_unique s p k (i + 1) 0 p hk h1 rfl
  omega


theorem not_qualifying_at_start (s : graph) (n p0 m p : Nat) (hp0 : (s.node n).parent = some p0)
    (hq : ¬ ((s.node n).structure_node = false ∧ (s.node p0).floating_inner = true))
    (hm : ancestor s 0 n = some m) : ¬ qualifying_step s m p := by
  intro hqm
  simp only [ancestor, Option.some.injEq] at hm
  subst hm
  have h1 := hqm.1
  rw [hp0] at h1
  cases h1
  exact hq ⟨hqm.2.1, hqm.2.2⟩

/-- What the walk of `view_bring_to_front` does on a finite parent chain, in
terms of the scene it starts from. -/
theorem view_bring_to_front_loop_spec :
    ∀ (k : Nat) (s : graph) (n : Nat) (d : Option Nat), chain_ends s n k →
      ∀ fuel, k < fuel → ∃ s1 d1,
        view_bring_to_front_loop fuel s n d = some (s1, d1) ∧
        same_frame s1 s ∧ s1.damage = s.damage ∧
        (∀ i m p, ancestor s i n = some m → qualifying_step s m p →
          (s1.node p).children = m :: (s.node p).children.filter (fun c => c ≠ m)) ∧
        (∀ p, (∀ i m, ancestor s i n = some m → ¬ qualifying_step s m p) →
          (s1.node p).children = (s.node p).children) ∧
        (((∀ i m p, ancestor s i n = some m → ¬ qualifying_step s m p) ∧ d1 = d) ∨
          (∃ i m p, ancestor s i n = some m ∧ qualifying_step s m p ∧
            (∀ j m2 p2, i < j → ancestor s j n = some m2 → ¬ qualifying_step s m2 p2) ∧
            d1 = some p)) := by
  intro k
  induction k with
  | zero =>
    intro s n d hk fuel hf
    obtain ⟨t, ht, htp⟩ := hk
    simp only [ancestor, Option.some.injEq] at ht
    subst ht
    obtain ⟨f, rfl⟩ : ∃ f, fuel = f + 1 := ⟨fuel - 1, by omega⟩
    have hnone : ∀ i m p, ancestor s i n = some m → ¬ qualifying_step s m p := by
      intro i m p hm hq
      cases i with
      | zero =>
        simp only [ancestor, Option.some.injEq] at hm
        subst hm
        have h1 := hq.1
        rw [htp] at h1
        cases h1
      | succ i => simp [ancestor, htp] at hm
    refine ⟨s, d, by simp [view_bring_to_front_loop, htp], same_frame_refl s, rfl, ?_, ?_,
      Or.inl ⟨hnone, rfl⟩⟩
    · intro i m p hm hq
      exact absurd hq (hnone i m p hm)
    · intro p _
      rfl
  | succ k ih =>
    intro s n d hk fuel hf
    obtain ⟨p0, hp0⟩ := chain_ends_has_parent s n k hk
    have hk0 := chain_ends_parent s n p0 k hp0 hk
    obtain ⟨f, rfl⟩ : ∃ f, fuel = f + 1 := ⟨fuel - 1, by omega⟩
    have hstep : ∀ i, ancestor s (i + 1) n = ancestor s i p0 :=
      fun i => ancestor_succ_of_parent s i n p0 hp0
    by_cases hq : (s.node n).structure_node = false ∧ (s.node p0).floating_inner = true
    · have hfr := raise_to_front_frame s n
      have hanc : ∀ i, ancestor (raise_to_front s n) i p0 = ancestor s i p0 :=
        fun i => ancestor_congr _ s hfr i p0
      have hqc : ∀ m p, qualifying_step (raise_to_front s n) m p ↔ qualifying_step s m p :=
        fun m p => qualifying_step_congr _ s hfr m p
      obtain ⟨s1, d1, hloop, hfr1, hdmg, hch1, hch2, hd⟩ :=
        ih (raise_to_front s n) p0 (some p0) (chain_ends_congr _ s hfr p0 k hk0) f (by omega)
      refine ⟨s1, d1, ?_, same_frame_trans _ _ _ hfr1 hfr,
        by rw [hdmg, raise_to_front_damage], ?_, ?_, ?_⟩
      · rw [view_bring_to_front_loop]
        simp only [hp0, hq, and_self, if_true]
        exact hloop
      · intro i m p hm hqm
        cases i with
        | zero =>
          simp only [ancestor, Option.some.injEq] at hm
          subst hm
          have hpp : p0 = p := by
            have h1 := hqm.1
            rw [hp0] at h1
            exact Option.some.inj h1
          subst hpp
          have hnone : ∀ i m, ancestor (raise_to_front s n) i p0 = some m →
              ¬ qualifying_step (raise_to_front s n) m p0 := by
            intro i m hm hqm2
            rw [hanc] at hm
            exact not_parent_of_ancestor s p0 k i m hk0 hm ((hqc m p0).1 hqm2).1
          rw [hch2 p0 hnone, raise_to_front_children_parent s n p0 hp0]
        | succ i =>
          rw [hstep] at hm
          have hne : p ≠ p0 := by
            intro h
            subst h
            exact not_parent_of_ancestor s p k i m hk0 hm hqm.1
          rw [hch1 i m p (by rw [hanc]; exact hm) ((hqc m p).2 hqm),
            raise_to_front_children_other s n p0 p hp0 hne]
      · intro p hno
        have hne : p ≠ p0 := by
          intro h
          subst h
          exact hno 0 n rfl ⟨hp0, hq.1, hq.2⟩
        have hnone : ∀ i m, ancestor (raise_to_front s n) i p0 = some m →
            ¬ qualifying_step (raise_to_front s n) m p := by
          intro i m hm hqm
          rw [hanc] at hm
          exact hno (i + 1) m (by rw [hstep]; exact hm) ((hqc m p).1 hqm)
        rw [hch2 p hnone, raise_to_front_children_other s n p0 p hp0 hne]
      · right
        rcases hd with ⟨hnone, hd1⟩ | ⟨i, m, p, hm, hqm, hlast, hd1⟩
        · refine ⟨0, n, p0, rfl, ⟨hp0, hq.1, hq.2⟩, ?_, hd1⟩
          intro j m2 p2 hj hm2 hq2
          obtain ⟨j2, rfl⟩ : ∃ j2, j = j2 + 1 := ⟨j - 1, by omega⟩
          rw [hstep] at hm2
          exact hnone j2 m2 p2 (by rw [hanc]; exact hm2) ((hqc m2 p2).2 hq2)
        · rw [hanc] at hm
          refine ⟨i + 1, m, p, by rw [hstep]; exact hm, (hqc m p).1 hqm, ?_, hd1⟩
          intro j m2 p2 hj hm2 hq2
          obtain ⟨j2, rfl⟩ : ∃ j2, j = j2 + 1 := ⟨j - 1, by omega⟩
          rw [hstep] at hm2
          exact hlast j2 m2 p2 (by omega) (by rw [hanc]; exact hm2) ((hqc m2 p2).2 hq2)
    · obtain ⟨s1, d1, hloop, hfr1, hdmg, hch1, hch2, hd⟩ := ih s p0 d hk0 f (by omega)
      refine ⟨s1, d1, ?_, hfr1, hdmg, ?_, ?_, ?_⟩
      · rw [view_bring_to_front_loop]
        simp only [hp0, hq, if_false]
        exact hloop
      · intro i m p hm hqm
        cases i with
        | zero => exact absurd hqm (not_qualifying_at_start s n p0 m p hp0 hq hm)
        | succ i =>
          rw [hstep] at hm
          exact hch1 i m p hm hqm
      · intro p hno
        exact hch2 p (fun i m hm => hno (i + 1) m (by rw [hstep]; exact hm))
      · rcases hd with ⟨hnone, hd1⟩ | ⟨i, m, p, hm, hqm, hlast, hd1⟩
        · left
          refine ⟨?_, hd1⟩
          intro i m p hm
          cases i with
          | zero => exact not_qualifying_at_start s n p0 m p hp0 hq hm
          | succ i =>
            rw [hstep] at hm
            exact hnone i m p hm
        · right
          refine ⟨i + 1, m, p, by rw [hstep]; exact hm, hqm, ?_, hd1⟩
          intro j m2 p2 hj hm2 hq2
          obtain ⟨j2, rfl⟩ : ∃ j2, j = j2 + 1 := ⟨j - 1, by omega⟩
          rw [hstep] at hm2
          exact hlast j2 m2 p2 (by omega) hm2 hq2


theorem raised_perm (l : List Nat) (n : Nat) (h : l.count n = 1) :
    (n :: l.filter (fun c => c ≠ n)).Perm l := by
  rw [List.perm_iff_count]
  intro a
  by_cases ha : a = n
  · subst ha
    have h0 : (l.filter (fun c => c ≠ a)).count a = 0 := by
      rw [List.count_eq_zero]
      simp
    rw [List.count_cons_self, h0, h]
  · rw [List.count_cons_of_ne ha]
    apply List.count_filter
    simpa using ha

theorem raised_twice (l : List Nat) (n : Nat) :
    n :: (n :: l.filter (fun c => c ≠ n)).filter (fun c => c ≠ n) =
      n :: l.filter (fun c => c ≠ n) := by
  simp [List.filter_filter]

/-- What `view_bring_to_front` does on a finite parent chain: the walk
followed by the damage request. -/
theorem view_bring_to_front_spec (s : graph) (view : view_interface_t) (k : Nat)
    (hk : chain_ends s view.root_node k) (fuel : Nat) (hf : k < fuel) :
    ∃ s1, view_bring_to_front s fuel view = some s1 ∧ same_frame s1 s ∧
      (∀ i m p, ancestor s i view.root_node = some m → qualifying_step s m p →
        (s1.node p).children = m :: (s.node p).children.filter (fun c => c ≠ m)) ∧
      (∀ p, (∀ i m, ancestor s i view.root_node = some m → ¬ qualifying_step s m p) →
        (s1.node p).children = (s.node p).children) ∧
      (((∀ i m p, ancestor s i view.root_node = some m → ¬ qualifying_step s m p) ∧
          s1.damage = s.damage) ∨
        (∃ i m p, ancestor s i view.root_node = some m ∧ qualifying_step s m p ∧
          (∀ j m2 p2, i < j → ancestor s j view.root_node = some m2 →
            ¬ qualifying_step s m2 p2) ∧
          s1.damage = s.damage ++ [(p, get_bounding_box s p)])) := by
  obtain ⟨s1, d1, hloop, hfr, hdmg, hch1, hch2, hd⟩ :=
    view_bring_to_front_loop_spec k s view.root_node none hk fuel hf
  rcases hd with ⟨hnone, hd1⟩ | ⟨i, m, p, hm, hqm, hlast, hd1⟩
  · subst hd1
    exact ⟨s1, by simp [view_bring_to_front, hloop], hfr, hch1, hch2, Or.inl ⟨hnone, hdmg⟩⟩
  · subst hd1
    refine ⟨damage_node s1 p (get_bounding_box s1 p), by simp [view_bring_to_front, hloop],
      ?_, hch1, hch2, Or.inr ⟨i, m, p, hm, hqm, hlast, ?_⟩⟩
    · exact ⟨hfr.parent, hfr.enabled, hfr.view, hfr.structure_node, hfr.floating_inner,
        hfr.bounding_box, hfr.root, hfr.all_layers, hfr.layers⟩
    · simp [damage_node, get_bounding_box, hdmg, hfr.bounding_box p]

/-- C6: on a finite parent chain `view_bring_to_front(view)` returns, and in
the scene it leaves: the child list of the parent `p` of every qualifying
step `n → p` of the walk (`n` not a structure node, `p` a floating-inner
node) is `n` followed by the other former children of `p` in their former
order; the child list of every node that is the parent of no qualifying step
is unchanged; no node changes parent; and when every node of the walk occurs
once among the children of its parent, every child list is a rearrangement of
the former one. -/
theorem view_bring_to_front_children (s : graph) (view : view_interface_t) (k : Nat)
    (hfin : chain_ends s view.root_node k) :
    ∀ fuel, k < fuel → ∃ s1, view_bring_to_front s fuel view = some s1 ∧
      (∀ i n p, ancestor s i view.root_node = some n → qualifying_step s n p →
        (s1.node p).children = n :: (s.node p).children.filter (fun c => c ≠ n)) ∧
      (∀ p, (∀ i n, ancestor s i view.root_node = some n → ¬ qualifying_step s n p) →
        (s1.node p).children = (s.node p).children) ∧
      (∀ m, (s1.node m).parent = (s.node m).parent) ∧
      ((∀ i n p, ancestor s i view.root_node = some n → (s.node n).parent = some p →
          (s.node p).children.count n = 1) →
        ∀ m, (s1.node m).children.Perm (s.node m).children) := by
  intro fuel hf
  obtain ⟨s1, h1, hfr, hch1, hch2, _⟩ := view_bring_to_front_spec s view k hfin fuel hf
  refine ⟨s1, h1, hch1, hch2, hfr.parent, ?_⟩
  intro honce m
  by_cases hex : ∃ i n, ancestor s i view.root_node = some n ∧ qualifying_step s n m
  · obtain ⟨i, n, hn, hq⟩ := hex
    rw [hch1 i n m hn hq]
    exact raised_perm _ n (honce i n m hn hq.1)
  · rw [hch2 m (fun i n hn hq => hex ⟨i, n, hn, hq⟩)]

/-- In the example scene, raising view 60 (node 6) moves node 6 in front of
node 5 under the floating node 4, keeps node 4 in front under the layer node
2, and leaves the children of the root as they were: the layer node 2 is a
structure node. -/
theorem view_bring_to_front_children_witness :
    ∃ s1, view_bring_to_front example_graph 4 ⟨60, 6, none⟩ = some s1 ∧
      (s1.node 4).children = [6, 5] ∧ (s1.node 2).children = [4, 7] ∧
      (s1.node 0).children = [1, 2] ∧ (s1.node 6).parent = some 4 := by
  obtain ⟨s1, h, hc1, hc2, hpar, _⟩ :=
    view_bring_to_front_children example_graph ⟨60, 6, none⟩ 3 ⟨0, by decide, by decide⟩ 4
      (by decide)
  refine ⟨s1, h, ?_, ?_, ?_, ?_⟩
  · rw [hc1 0 6 4 (by decide) ⟨by decide, by decide, by decide⟩]
    decide
  · rw [hc1 1 4 2 (by decide) ⟨by decide, by decide, by decide⟩]
    decide
  · rw [hc2 0]
    · decide
    · intro i n hn hq
      rcases i with _ | _ | _ | _ | i <;>
        simp [ancestor, example_graph, example_node] at hn <;> subst hn <;>
        simp [qualifying_step, example_graph, example_node] at hq
  · rw [hpar 6]
    decide

/-- C7: on a finite parent chain, a second `view_bring_to_front(view)` right
after the first returns a scene in which every node has the child list it had
after the first. -/
theorem view_bring_to_front_idempotent (s : graph) (view : view_interface_t) (k : Nat)
    (hfin : chain_ends s view.root_node k) :
    ∀ fuel, k < fuel → ∃ s1 s2, view_bring_to_front s fuel view = some s1 ∧
      view_bring_to_front s1 fuel view = some s2 ∧
      ∀ m, (s2.node m).children = (s1.node m).children := by
  intro fuel hf
  obtain ⟨s1, h1, hfr, hch1, hch2, _⟩ := view_bring_to_front_spec s view k hfin fuel hf
  obtain ⟨s2, h2, _, hch3, hch4, _⟩ :=
    view_bring_to_front_spec s1 view k (chain_ends_congr s1 s hfr _ k hfin) fuel hf
  refine ⟨s1, s2, h1, h2, ?_⟩
  intro m
  by_cases hex : ∃ i n, ancestor s i view.root_node = some n ∧ qualifying_step s n m
  · obtain ⟨i, n, hn, hq⟩ := hex
    rw [hch3 i n m (by rw [ancestor_congr s1 s hfr]; exact hn)
      ((qualifying_step_congr s1 s hfr n m).2 hq), hch1 i n m hn hq]
    exact raised_twice _ n
  · apply hch4 m
    intro i n hn hq
    rw [ancestor_congr s1 s hfr] at hn
    exact hex ⟨i, n, hn, (qualifying_step_congr s1 s hfr n m).1 hq⟩

/-- In the example scene, raising view 60 twice leaves the same child lists
as raising it once. -/
theorem view_bring_to_front_idempotent_witness :
    ∃ s1 s2, view_bring_to_front example_graph 4 ⟨60, 6, none⟩ = some s1 ∧
      view_bring_to_front s1 4 ⟨60, 6, none⟩ = some s2 ∧
      ∀ m, (s2.node m).children = (s1.node m).children :=
  view_bring_to_front_idempotent example_graph ⟨60, 6, none⟩ 3 ⟨0, by decide, by decide⟩ 4
    (by decide)


/-- C8: on a finite parent chain `view_bring_to_front(view)` adds no damage
request when no step of the walk qualifies, and otherwise exactly one: for
the parent `p` of the qualifying step nearest to the graph root (no later
step of the walk qualifies), with the bounding box of `p`; a second call adds
the same request once more. -/
theorem view_bring_to_front_damage (s : graph) (view : view_interface_t) (k : Nat)
    (hfin : chain_ends s view.root_node k) :
    ∀ fuel, k < fuel → ∃ s1 s2, view_bring_to_front s fuel view = some s1 ∧
      view_bring_to_front s1 fuel view = some s2 ∧
      (((∀ i n p, ancestor s i view.root_node = some n → ¬ qualifying_step s n p) ∧
          s1.damage = s.damage ∧ s2.damage = s.damage) ∨
        (∃ i n p, ancestor s i view.root_node = some n ∧ qualifying_step s n p ∧
          (∀ j n2 p2, i < j → ancestor s j view.root_node = some n2 →
            ¬ qualifying_step s n2 p2) ∧
          s1.damage = s.damage ++ [(p, get_bounding_box s p)] ∧
          s2.damage = s.damage ++ [(p, get_bounding_box s p), (p, get_bounding_box s p)])) := by
  intro fuel hf
  obtain ⟨s1, h1, hfr, _, _, hd1⟩ := view_bring_to_front_spec s view k hfin fuel hf
  obtain ⟨s2, h2, _, _, _, hd2⟩ :=
    view_bring_to_front_spec s1 view k (chain_ends_congr s1 s hfr _ k hfin) fuel hf
  have hanc : ∀ i, ancestor s1 i view.root_node = ancestor s i view.root_node :=
    fun i => ancestor_congr s1 s hfr i _
  have hqc : ∀ m p, qualifying_step s1 m p ↔ qualifying_step s m p :=
    fun m p => qualifying_step_congr s1 s hfr m p
  refine ⟨s1, s2, h1, h2, ?_⟩
  rcases hd1 with ⟨hnone, hdmg1⟩ | ⟨i, n, p, hn, hq, hlast, hdmg1⟩
  · left
    rcases hd2 with ⟨_, hdmg2⟩ | ⟨i2, n2, p2, hn2, hq2, _, _⟩
    · exact ⟨hnone, hdmg1, by rw [hdmg2, hdmg1]⟩
    · rw [hanc] at hn2
      exact absurd ((hqc n2 p2).1 hq2) (hnone i2 n2 p2 hn2)
  · right
    refine ⟨i, n, p, hn, hq, hlast, hdmg1, ?_⟩
    rcases hd2 with ⟨hnone2, _⟩ | ⟨i2, n2, p2, hn2, hq2, hlast2, hdmg2⟩
    · exact absurd ((hqc n p).2 hq) (hnone2 i n p (by rw [hanc]; exact hn))
    · rw [hanc] at hn2
      have hq2s := (hqc n2 p2).1 hq2
      have hii : i2 = i := by
        rcases Nat.lt_trichotomy i2 i with h | h | h
        · exact absurd ((hqc n p).2 hq) (hlast2 i n p h (by rw [hanc]; exact hn))
        · exact h
        · exact absurd hq2s (hlast i2 n2 p2 h hn2)
      subst hii
      rw [hn] at hn2
      cases hn2
      have hpp : p2 = p := by
        have h3 := hq2s.1
        rw [hq.1] at h3
        exact (Option.some.inj h3).symm
      subst hpp
      rw [hdmg2, hdmg1]
      simp [get_bounding_box, hfr.bounding_box p2]

/-- In the example scene, raising view 60 qualifies at the steps 6 → 4 and
4 → 2; the one damage request is for node 2, the parent nearer to the root,
with its bounding box, and raising again requests it again. -/
theorem view_bring_to_front_damage_witness :
    ∃ s1 s2, view_bring_to_front example_graph 4 ⟨60, 6, none⟩ = some s1 ∧
      view_bring_to_front s1 4 ⟨60, 6, none⟩ = some s2 ∧
      s1.damage = [(2, ⟨0, 0, 800, 600⟩)] ∧
      s2.damage = [(2, ⟨0, 0, 800, 600⟩), (2, ⟨0, 0, 800, 600⟩)] := by
  obtain ⟨s1, s2, h1, h2, hd⟩ :=
    view_bring_to_front_damage example_graph ⟨60, 6, none⟩ 3 ⟨0, by decide, by decide⟩ 4
      (by decide)
  refine ⟨s1, s2, h1, h2, ?_⟩
  rcases hd with ⟨hnone, _, _⟩ | ⟨i, n, p, hn, hq, hlast, hd1, hd2⟩
  · exact absurd ⟨by decide, by decide, by decide⟩ (hnone 0 6 4 (by decide))
  · have hp : p = 2 := by
      rcases i with _ | _ | _ | _ | i
      · exact absurd ⟨by decide, by decide, by decide⟩ (hlast 1 4 2 (by omega) (by decide))
      · simp [ancestor, example_graph, example_node] at hn
        subst hn
        simpa [example_graph, example_node] using hq.1.symm
      · simp [ancestor, example_graph, example_node] at hn
        subst hn
        simp [qualifying_step, example_graph, example_node] at hq
      · simp [ancestor, example_graph, example_node] at hn
        subst hn
        simp [qualifying_step, example_graph, example_node] at hq
      · simp [ancestor, example_graph, example_node] at hn
    subst hp
    exact ⟨hd1, hd2⟩


/-! ## Claims on the map and unmap signals -/

/-- C9, as amended: for a view with an associated output `o` and any
`has_position`, `emit_view_map_signal` delivers exactly three events, to the
view, then to the output `o`, then to the core, each the map signal carrying
the view and `is_positioned = has_position`; `emit_view_map` does so with
`is_positioned = false`. -/
theorem emit_view_map_signal_trace (view : view_interface_t) (o : Nat) (has_position : Bool)
    (hout : view.output = some o) :
    emit_view_map_signal view has_position =
      outcome.done
        [⟨scope.view view.id, signal.view_mapped_signal view.id has_position⟩,
         ⟨scope.output o, signal.view_mapped_signal view.id has_position⟩,
         ⟨scope.core, signal.view_mapped_signal view.id has_position⟩] ∧
    emit_view_map view =
      outcome.done
        [⟨scope.view view.id, signal.view_mapped_signal view.id false⟩,
         ⟨scope.output o, signal.view_mapped_signal view.id false⟩,
         ⟨scope.core, signal.view_mapped_signal view.id false⟩] := by
  simp [emit_view_map, emit_view_map_signal, hout]

/-- The view 7 on output 2 is announced to the view, to output 2 and to the
core, in this order. -/
theorem emit_view_map_signal_trace_witness :
    emit_view_map_signal ⟨7, 0, some 2⟩ true =
      outcome.done
        [⟨scope.view 7, signal.view_mapped_signal 7 true⟩,
         ⟨scope.output 2, signal.view_mapped_signal 7 true⟩,
         ⟨scope.core, signal.view_mapped_signal 7 true⟩] :=
  (emit_view_map_signal_trace ⟨7, 0, some 2⟩ 2 true rfl).1

/-- C9 as stated fails for a view without output: after the delivery to the
view the code calls `emit` through the null output pointer, so three events
are not delivered. -/
theorem emit_view_map_signal_without_output :
    emit_view_map_signal ⟨7, 0, none⟩ true =
      outcome.null_dereference [⟨scope.view 7, signal.view_mapped_signal 7 true⟩] ∧
    ¬ ∃ trace, emit_view_map_signal ⟨7, 0, none⟩ true = outcome.done trace := by
  constructor
  · rfl
  · rintro ⟨trace, h⟩
    simp [emit_view_map_signal] at h

/-- C10: `emit_view_unmap` delivers, for a view with output `o`, the unmapped
signal to the output, the disappeared signal to the output, the unmapped
signal to the view and the unmapped signal to the core, in this order; for a
view without output, the unmapped signal to the view and then to the core;
every signal carries the view. -/
theorem emit_view_unmap_trace (id root_node : Nat) :
    (∀ o, emit_view_unmap ⟨id, root_node, some o⟩ =
      outcome.done
        [⟨scope.output o, signal.view_unmapped_signal id⟩,
         ⟨scope.output o, signal.view_disappeared_signal id⟩,
         ⟨scope.view id, signal.view_unmapped_signal id⟩,
         ⟨scope.core, signal.view_unmapped_signal id⟩]) ∧
    emit_view_unmap ⟨id, root_node, none⟩ =
      outcome.done
        [⟨scope.view id, signal.view_unmapped_signal id⟩,
         ⟨scope.core, signal.view_unmapped_signal id⟩] := by
  constructor
  · intro o
    rfl
  · rfl

/-! ## Claims on the other signals -/

/-- C11: `emit_view_pre_unmap` delivers the pre-unmap signal, carrying the
view, to the output, the view and the core in this order when the view has an
output `o`, and to the view and the core when it has none. -/
theorem emit_view_pre_unmap_trace (id root_node : Nat) :
    (∀ o, emit_view_pre_unmap ⟨id, root_node, some o⟩ =
      outcome.done
        [⟨scope.output o, signal.view_pre_unmap_signal id⟩,
         ⟨scope.view id, signal.view_pre_unmap_signal id⟩,
         ⟨scope.core, signal.view_pre_unmap_signal id⟩]) ∧
    emit_view_pre_unmap ⟨id, root_node, none⟩ =
      outcome.done
        [⟨scope.view id, signal.view_pre_unmap_signal id⟩,
         ⟨scope.core, signal.view_pre_unmap_signal id⟩] := by
  constructor
  · intro o
    rfl
  · rfl

/-- C12: `emit_geometry_changed_signal` delivers the geometry-changed signal,
carrying the view and `old_geometry` as given, to the view, the core and the
output `o` in this order when the view has an output, and to the view and the
core when it has none: the delivery to the output, when there is one, is the
last one. -/
theorem emit_geometry_changed_signal_trace (id root_node : Nat) (old_geometry : geometry_t) :
    (∀ o, emit_geometry_changed_signal ⟨id, root_node, some o⟩ old_geometry =
      outcome.done
        [⟨scope.view id, signal.view_geometry_changed_signal id old_geometry⟩,
         ⟨scope.core, signal.view_geometry_changed_signal id old_geometry⟩,
         ⟨scope.output o, signal.view_geometry_changed_signal id old_geometry⟩]) ∧
    emit_geometry_changed_signal ⟨id, root_node, none⟩ old_geometry =
      outcome.done
        [⟨scope.view id, signal.view_geometry_changed_signal id old_geometry⟩,
         ⟨scope.core, signal.view_geometry_changed_signal id old_geometry⟩] :=
  ⟨fun _ => rfl, rfl⟩

/-- C13: `emit_ping_timeout_signal` delivers one event, the ping-timeout
signal carrying the view, to the view, whether or not the view has an output;
nothing goes to an output or to the core. -/
theorem emit_ping_timeout_signal_trace (view : view_interface_t) :
    emit_ping_timeout_signal view =
      outcome.done [⟨scope.view view.id, signal.view_ping_timeout_signal view.id⟩] :=
  rfl

/-! ## Claims on `adjust_geometry_for_gravity` -/

theorem edge_right_test (g : Nat) : g &&& WLR_EDGE_RIGHT ≠ 0 ↔ g.testBit 3 = true := by
  have h := Nat.and_two_pow g 3
  simp only [show (2 : Nat) ^ 3 = 8 by norm_num] at h
  rw [WLR_EDGE_RIGHT, h]
  cases g.testBit 3 <;> simp

theorem edge_bottom_test (g : Nat) : g &&& WLR_EDGE_BOTTOM ≠ 0 ↔ g.testBit 1 = true := by
  have h := Nat.and_two_pow g 1
  simp only [show (2 : Nat) ^ 1 = 2 by norm_num] at h
  rw [WLR_EDGE_BOTTOM, h]
  cases g.testBit 1 <;> simp

theorem int_wrap_of_range (z : Int) (h1 : INT_MIN ≤ z) (h2 : z ≤ INT_MAX) : int_wrap z = z := by
  unfold INT_MIN at h1
  unfold INT_MAX at h2
  unfold int_wrap
  omega

theorem int_wrap_add_wrap (a b : Int) : int_wrap (a + int_wrap b) = int_wrap (a + b) := by
  unfold int_wrap
  omega

theorem int_wrap_congruent (z : Int) : (int_wrap z - z) % 4294967296 = 0 := by
  unfold int_wrap
  omega

theorem adjust_geometry_for_gravity_eq (x y w h : Int) (g : Nat) (aw ah : Int) :
    adjust_geometry_for_gravity ⟨⟨x, y, w, h⟩, g⟩ ⟨aw, ah⟩ =
      ⟨⟨if g &&& WLR_EDGE_RIGHT ≠ 0 then int_wrap (x + (w - aw)) else x,
        if g &&& WLR_EDGE_BOTTOM ≠ 0 then int_wrap (y + (h - ah)) else y, aw, ah⟩, g⟩ := by
  unfold adjust_geometry_for_gravity
  by_cases hr : g &&& WLR_EDGE_RIGHT ≠ 0 <;> by_cases hb : g &&& WLR_EDGE_BOTTOM ≠ 0 <;>
    simp [hr, hb, int_wrap_add_wrap]

/-- C14, as amended: for a desired geometry `(x, y, w, h)`, a gravity bitset
`g` and an actual size `(aw, ah)`, the adjusted `x` is, when the right flag is
set in `g`, the `int` result of `x + (w - aw)`, which is `x + (w - aw)` itself
whenever that sum lies between `INT_MIN` and `INT_MAX`, and `x` otherwise;
likewise the adjusted `y` with the bottom flag and `y + (h - ah)`.  The tests
are those of bit 3 and bit 1 of `g`, so two bitsets that agree on these bits
(whatever their left and top bits) give the same geometry; with no flag the
position is unchanged; and the worked example of the spec comes out as
`(150, 100, 250, 150)`. -/
theorem adjust_geometry_for_gravity_position (x y w h : Int) (g : Nat) (aw ah : Int) :
    (adjust_geometry_for_gravity ⟨⟨x, y, w, h⟩, g⟩ ⟨aw, ah⟩).geometry.x =
      (if g &&& WLR_EDGE_RIGHT ≠ 0 then int_wrap (x + (w - aw)) else x) ∧
    (adjust_geometry_for_gravity ⟨⟨x, y, w, h⟩, g⟩ ⟨aw, ah⟩).geometry.y =
      (if g &&& WLR_EDGE_BOTTOM ≠ 0 then int_wrap (y + (h - ah)) else y) ∧
    (INT_MIN ≤ x + (w - aw) → x + (w - aw) ≤ INT_MAX →
      (adjust_geometry_for_gravity ⟨⟨x, y, w, h⟩, g⟩ ⟨aw, ah⟩).geometry.x =
        (if g &&& WLR_EDGE_RIGHT ≠ 0 then x + (w - aw) else x)) ∧
    (INT_MIN ≤ y + (h - ah) → y + (h - ah) ≤ INT_MAX →
      (adjust_geometry_for_gravity ⟨⟨x, y, w, h⟩, g⟩ ⟨aw, ah⟩).geometry.y =
        (if g &&& WLR_EDGE_BOTTOM ≠ 0 then y + (h - ah) else y)) ∧
    ((g &&& WLR_EDGE_RIGHT ≠ 0 ↔ g.testBit 3 = true) ∧
      (g &&& WLR_EDGE_BOTTOM ≠ 0 ↔ g.testBit 1 = true)) ∧
    (∀ g2 : Nat, g2.testBit 3 = g.testBit 3 → g2.testBit 1 = g.testBit 1 →
      (adjust_geometry_for_gravity ⟨⟨x, y, w, h⟩, g2⟩ ⟨aw, ah⟩).geometry =
        (adjust_geometry_for_gravity ⟨⟨x, y, w, h⟩, g⟩ ⟨aw, ah⟩).geometry) ∧
    (adjust_geometry_for_gravity ⟨⟨x, y, w, h⟩, 0⟩ ⟨aw, ah⟩).geometry = ⟨x, y, aw, ah⟩ ∧
    (adjust_geometry_for_gravity ⟨⟨100, 50, 300, 200⟩, WLR_EDGE_RIGHT ||| WLR_EDGE_BOTTOM⟩
      ⟨250, 150⟩).geometry = ⟨150, 100, 250, 150⟩ := by
  refine ⟨?_, ?_, ?_, ?_, ⟨edge_right_test g, edge_bottom_test g⟩, ?_, ?_, ?_⟩
  · rw [adjust_geometry_for_gravity_eq]
  · rw [adjust_geometry_for_gravity_eq]
  · intro h1 h2
    rw [adjust_geometry_for_gravity_eq]
    dsimp only
    rw [int_wrap_of_range _ h1 h2]
  · intro h1 h2
    rw [adjust_geometry_for_gravity_eq]
    dsimp only
    rw [int_wrap_of_range _ h1 h2]
  · intro g2 h3 h1
    have hr : (g2 &&& WLR_EDGE_RIGHT ≠ 0) ↔ (g &&& WLR_EDGE_RIGHT ≠ 0) := by
      rw [edge_right_test, edge_right_test, h3]
    have hb : (g2 &&& WLR_EDGE_BOTTOM ≠ 0) ↔ (g &&& WLR_EDGE_BOTTOM ≠ 0) := by
      rw [edge_bottom_test, edge_bottom_test, h1]
    rw [adjust_geometry_for_gravity_eq, adjust_geometry_for_gravity_eq]
    simp only [hr, hb]
  · rw [adjust_geometry_for_gravity_eq]
    simp
  · decide

/-- The gravity `right` alone and the gravity `right, left, top` move a
window of width 300 that came out 250 wide by 50 to the right: the sum
`100 + (300 - 250)` is within the range of `int`. -/
theorem adjust_geometry_for_gravity_position_witness :
    (adjust_geometry_for_gravity ⟨⟨100, 50, 300, 200⟩, 13⟩ ⟨250, 150⟩).geometry =
      (adjust_geometry_for_gravity ⟨⟨100, 50, 300, 200⟩, 8⟩ ⟨250, 150⟩).geometry ∧
    (adjust_geometry_for_gravity ⟨⟨100, 50, 300, 200⟩, 8⟩ ⟨250, 150⟩).geometry.x =
      (if 8 &&& WLR_EDGE_RIGHT ≠ 0 then 100 + (300 - 250) else 100) :=
  ⟨(adjust_geometry_for_gravity_position 100 50 300 200 8 250 150).2.2.2.2.2.1 13
      (by decide) (by decide),
   (adjust_geometry_for_gravity_position 100 50 300 200 8 250 150).2.2.1
      (by decide) (by decide)⟩

/-- C14 as stated fails where the sum leaves the range of `int`: with the
right flag, `x = INT_MAX`, `w = 1` and `aw = 0` the adjusted `x` is
`INT_MIN`, not `x + (w - aw)`. -/
theorem adjust_geometry_for_gravity_position_overflow :
    8 &&& WLR_EDGE_RIGHT ≠ 0 ∧
    (adjust_geometry_for_gravity ⟨⟨2147483647, 0, 1, 0⟩, 8⟩ ⟨0, 0⟩).geometry.x =
      -2147483648 ∧
    (adjust_geometry_for_gravity ⟨⟨2147483647, 0, 1, 0⟩, 8⟩ ⟨0, 0⟩).geometry.x ≠
      2147483647 + (1 - 0) := by
  decide

/-- C15: after `adjust_geometry_for_gravity` the width and the height of the
geometry are those of `actual_size`, whatever the gravity, and the gravity is
the one passed in. -/
theorem adjust_geometry_for_gravity_size (desired_state : toplevel_state_t)
    (actual_size : dimensions_t) :
    (adjust_geometry_for_gravity desired_state actual_size).geometry.width =
      actual_size.width ∧
    (adjust_geometry_for_gravity desired_state actual_size).geometry.height =
      actual_size.height ∧
    (adjust_geometry_for_gravity desired_state actual_size).gravity =
      desired_state.gravity := by
  obtain ⟨⟨x, y, w, h⟩, g⟩ := desired_state
  obtain ⟨aw, ah⟩ := actual_size
  rw [adjust_geometry_for_gravity_eq]
  exact ⟨rfl, rfl, rfl⟩

/-- C16, as amended: `adjust_geometry_for_gravity` keeps the anchored edge
where it was, over the exact integers, whenever the new position lies in the
range of `int`: with the right flag and `x + (width - actual width)` between
`INT_MIN` and `INT_MAX` the right edge `x + width` is kept, without the right
flag the left edge `x`; with the bottom flag and `y + (height - actual
height)` in that range the bottom edge `y + height`, without it the top edge
`y`.  Outside the range the edge is kept modulo `2^32`. -/
theorem adjust_geometry_for_gravity_anchor (desired_state : toplevel_state_t)
    (actual_size : dimensions_t) :
    (desired_state.gravity &&& WLR_EDGE_RIGHT ≠ 0 →
      INT_MIN ≤ desired_state.geometry.x +
        (desired_state.geometry.width - actual_size.width) →
      desired_state.geometry.x +
        (desired_state.geometry.width - actual_size.width) ≤ INT_MAX →
      (adjust_geometry_for_gravity desired_state actual_size).geometry.x +
        (adjust_geometry_for_gravity desired_state actual_size).geometry.width =
      desired_state.geometry.x + desired_state.geometry.width) ∧
    (¬ desired_state.gravity &&& WLR_EDGE_RIGHT ≠ 0 →
      (adjust_geometry_for_gravity desired_state actual_size).geometry.x =
        desired_state.geometry.x) ∧
    (desired_state.gravity &&& WLR_EDGE_BOTTOM ≠ 0 →
      INT_MIN ≤ desired_state.geometry.y +
        (desired_state.geometry.height - actual_size.height) →
      desired_state.geometry.y +
        (desired_state.geometry.height - actual_size.height) ≤ INT_MAX →
      (adjust_geometry_for_gravity desired_state actual_size).geometry.y +
        (adjust_geometry_for_gravity desired_state actual_size).geometry.height =
      desired_state.geometry.y + desired_state.geometry.height) ∧
    (¬ desired_state.gravity &&& WLR_EDGE_BOTTOM ≠ 0 →
      (adjust_geometry_for_gravity desired_state actual_size).geometry.y =
        desired_state.geometry.y) ∧
    (desired_state.gravity &&& WLR_EDGE_RIGHT ≠ 0 →
      ((adjust_geometry_for_gravity desired_state actual_size).geometry.x +
        (adjust_geometry_for_gravity desired_state actual_size).geometry.width -
        (desired_state.geometry.x + desired_state.geometry.width)) % 4294967296 = 0) ∧
    (desired_state.gravity &&& WLR_EDGE_BOTTOM ≠ 0 →
      ((adjust_geometry_for_gravity desired_state actual_size).geometry.y +
        (adjust_geometry_for_gravity desired_state actual_size).geometry.height -
        (desired_state.geometry.y + desired_state.geometry.height)) % 4294967296 = 0) := by
  obtain ⟨⟨x, y, w, h⟩, g⟩ := desired_state
  obtain ⟨aw, ah⟩ := actual_size
  rw [adjust_geometry_for_gravity_eq]
  refine ⟨?_, ?_, ?_, ?_, ?_, ?_⟩
  · intro hr h1 h2
    dsimp only at hr h1 h2 ⊢
    rw [if_pos hr, int_wrap_of_range _ h1 h2]
    omega
  · intro hr
    dsimp only at hr ⊢
    rw [if_neg hr]
  · intro hb h1 h2
    dsimp only at hb h1 h2 ⊢
    rw [if_pos hb, int_wrap_of_range _ h1 h2]
    omega
  · intro hb
    dsimp only at hb ⊢
    rw [if_neg hb]
  · intro hr
    dsimp only at hr ⊢
    rw [if_pos hr]
    have := int_wrap_congruent (x + (w - aw))
    omega
  · intro hb
    dsimp only at hb ⊢
    rw [if_pos hb]
    have := int_wrap_congruent (y + (h - ah))
    omega

/-- With gravity `right` (and not `bottom`) and a new position within the
range of `int`, the right edge stays at 400 and the top edge at 50. -/
theorem adjust_geometry_for_gravity_anchor_witness :
    (adjust_geometry_for_gravity ⟨⟨100, 50, 300, 200⟩, 8⟩ ⟨250, 150⟩).geometry.x +
        (adjust_geometry_for_gravity ⟨⟨100, 50, 300, 200⟩, 8⟩ ⟨250, 150⟩).geometry.width =
      100 + 300 ∧
    (adjust_geometry_for_gravity ⟨⟨100, 50, 300, 200⟩, 8⟩ ⟨250, 150⟩).geometry.y = 50 :=
  ⟨(adjust_geometry_for_gravity_anchor ⟨⟨100, 50, 300, 200⟩, 8⟩ ⟨250, 150⟩).1 (by decide)
      (by decide) (by decide),
   (adjust_geometry_for_gravity_anchor ⟨⟨100, 50, 300, 200⟩, 8⟩ ⟨250, 150⟩).2.2.2.1
      (by decide)⟩

/-- C16 as stated fails where the new position leaves the range of `int`:
with the right flag, `x = INT_MAX`, `width = 1` and actual width 0, the right
edge was at `2147483648` and is at `-2147483648` afterwards. -/
theorem adjust_geometry_for_gravity_anchor_overflow :
    8 &&& WLR_EDGE_RIGHT ≠ 0 ∧
    (adjust_geometry_for_gravity ⟨⟨2147483647, 0, 1, 0⟩, 8⟩ ⟨0, 0⟩).geometry.x +
        (adjust_geometry_for_gravity ⟨⟨2147483647, 0, 1, 0⟩, 8⟩ ⟨0, 0⟩).geometry.width =
      -2147483648 ∧
    (2147483647 : Int) + 1 = 2147483648 ∧
    (adjust_geometry_for_gravity ⟨⟨2147483647, 0, 1, 0⟩, 8⟩ ⟨0, 0⟩).geometry.x +
        (adjust_geometry_for_gravity ⟨⟨2147483647, 0, 1, 0⟩, 8⟩ ⟨0, 0⟩).geometry.width ≠
      2147483647 + 1 := by
  decide

/-! ## Claims on the mapped surface contents -/

/-- C17: for any state of the view and any content, with or without a
surface, `set_mapped_surface_contents(content)` followed by
`unset_mapped_surface_contents()` leaves the surface root without children,
without controller and with a null tracked surface; after
`set_mapped_surface_contents(content)` alone the child list of the surface
root is `[content]`, whatever it was before. -/
theorem set_then_unset_mapped_surface_contents (priv : view_priv_impl)
    (content : wlr_surface_node_t) :
    (unset_mapped_surface_contents
      (set_mapped_surface_contents priv content)).surface_root_children = [] ∧
    (unset_mapped_surface_contents
      (set_mapped_surface_contents priv content)).surface_controller = none ∧
    (unset_mapped_surface_contents
      (set_mapped_surface_contents priv content)).wsurface = none ∧
    (set_mapped_surface_contents priv content).surface_root_children = [content] := by
  refine ⟨rfl, rfl, rfl, ?_⟩
  unfold set_mapped_surface_contents
  cases content.surface <;> rfl

theorem reachable_invariant (root : Nat) (priv : view_priv_impl) (h : reachable root priv) :
    priv.surface_root_node = root ∧
    (priv.surface_controller ≠ none → priv.surface_root_children ≠ []) ∧
    (∀ content surface, priv.surface_root_children = [content] →
      content.surface = some surface →
      priv.surface_controller = some ⟨surface, root⟩) ∧
    (∀ content, priv.surface_root_children = [content] →
      priv.wsurface = content.surface) := by
  induction h with
  | fresh =>
    refine ⟨rfl, fun h => absurd rfl h, ?_, ?_⟩
    · intro content surface hc
      cases hc
    · intro content hc
      cases hc
  | set p c _ ih =>
    obtain ⟨hroot, _, _, _⟩ := ih
    cases hs : c.surface with
    | none =>
      simp only [set_mapped_surface_contents, hs, set_children_list, scene_update]
      refine ⟨hroot, fun _ => by simp, ?_, ?_⟩
      · intro content surface hc hsurf
        simp only [List.cons.injEq, and_true] at hc
        subst hc
        rw [hs] at hsurf
        cases hsurf
      · intro content hc
        simp only [List.cons.injEq, and_true] at hc
        subst hc
        exact hs.symm
    | some surf =>
      simp only [set_mapped_surface_contents, hs, set_children_list, scene_update]
      refine ⟨hroot, fun _ => by simp, ?_, ?_⟩
      · intro content surface hc hsurf
        simp only [List.cons.injEq, and_true] at hc
        subst hc
        rw [hs] at hsurf
        cases hsurf
        rw [hroot]
      · intro content hc
        simp only [List.cons.injEq, and_true] at hc
        subst hc
        exact hs.symm
  | unset p _ ih =>
    obtain ⟨hroot, _, _, _⟩ := ih
    simp only [unset_mapped_surface_contents, set_children_list, scene_update]
    refine ⟨hroot, fun h => absurd rfl h, ?_, ?_⟩
    · intro content surface hc
      cases hc
    · intro content hc
      cases hc

theorem reachable_children (root : Nat) (priv : view_priv_impl) (h : reachable root priv) :
    priv.surface_root_children = [] ∨ ∃ content, priv.surface_root_children = [content] := by
  cases h with
  | fresh => exact Or.inl rfl
  | set p c _ =>
    right
    refine ⟨c, ?_⟩
    unfold set_mapped_surface_contents
    cases c.surface <;> rfl
  | unset p _ => exact Or.inl rfl

/-- C18, as amended: in every state that a fresh view reaches by calls of
`set_mapped_surface_contents` and `unset_mapped_surface_contents`, with
contents with or without a surface, the surface root has no child or exactly
one (the bound content); a live controller implies bound content; and when
the bound content has a surface, a controller is live, observes that surface
and is attached to the surface root, and the tracked surface is that of the
bound content. -/
theorem surface_controller_follows_content (root : Nat) (priv : view_priv_impl)
    (h : reachable root priv) :
    (priv.surface_root_children = [] ∨ ∃ content, priv.surface_root_children = [content]) ∧
    (priv.surface_controller ≠ none → priv.surface_root_children ≠ []) ∧
    (∀ content surface, priv.surface_root_children = [content] →
      content.surface = some surface →
      priv.surface_controller = some ⟨surface, root⟩) ∧
    (∀ content, priv.surface_root_children = [content] →
      priv.wsurface = content.surface) :=
  ⟨reachable_children root priv h, (reachable_invariant root priv h).2⟩

/-- A fresh view bound to a content with surface 5, unbound, and bound to a
content with surface 6 has a controller that observes surface 6. -/
theorem surface_controller_follows_content_witness :
    (set_mapped_surface_contents (unset_mapped_surface_contents
      (set_mapped_surface_contents (fresh_view_priv 0) ⟨1, some 5⟩)) ⟨2, some 6⟩).surface_controller
      = some ⟨6, 0⟩ :=
  (surface_controller_follows_content 0 _
    (reachable.set _ ⟨2, some 6⟩ (reachable.unset _
      (reachable.set _ ⟨1, some 5⟩ reachable.fresh)))).2.2.1 ⟨2, some 6⟩ 6 rfl rfl

/-- C18 as stated fails: a fresh view bound to a content without surface has
bound content and no controller; and after a content with surface 5 a content
without surface is bound while the controller still observes surface 5. -/
theorem surface_controller_not_iff_content :
    reachable 0 (set_mapped_surface_contents (fresh_view_priv 0) ⟨1, none⟩) ∧
    ¬ ((set_mapped_surface_contents (fresh_view_priv 0) ⟨1, none⟩).surface_controller ≠ none ↔
      (set_mapped_surface_contents (fresh_view_priv 0) ⟨1, none⟩).surface_root_children ≠ []) ∧
    reachable 0 (set_mapped_surface_contents
      (set_mapped_surface_contents (fresh_view_priv 0) ⟨1, some 5⟩) ⟨2, none⟩) ∧
    (set_mapped_surface_contents
      (set_mapped_surface_contents (fresh_view_priv 0) ⟨1, some 5⟩) ⟨2, none⟩).surface_root_children
      = [⟨2, none⟩] ∧
    (set_mapped_surface_contents
      (set_mapped_surface_contents (fresh_view_priv 0) ⟨1, some 5⟩) ⟨2, none⟩).surface_controller
      = some ⟨5, 0⟩ := by
  refine ⟨reachable.set _ _ reachable.fresh, by decide,
    reachable.set _ _ (reachable.set _ _ reachable.fresh), rfl, rfl⟩

/-! ## Claims on `wl_surface_to_wayfire_view` -/

/-- C19: `wl_surface_to_wayfire_view` returns no view for a null resource,
for a resource without surface, and for a surface that none of the shells
recognises; for a surface that exactly one shell recognises (xwayland counts
in a build with `WF_HAS_XWAYLAND`) it returns what the data of that shell
holds: the view `v` when it holds `v`, no view when it holds none.  The
function has a result on every input. -/
theorem wl_surface_to_wayfire_view_cases (WF_HAS_XWAYLAND : Bool) :
    wl_surface_to_wayfire_view WF_HAS_XWAYLAND none = none ∧
    wl_surface_to_wayfire_view WF_HAS_XWAYLAND (some ⟨none⟩) = none ∧
    (∀ surface : wlr_surface, surface.is_xdg_surface = false →
      surface.is_layer_surface = false →
      (WF_HAS_XWAYLAND = false ∨ surface.is_xwayland_surface = false) →
      wl_surface_to_wayfire_view WF_HAS_XWAYLAND (some ⟨some surface⟩) = none) ∧
    (∀ surface : wlr_surface, surface.is_xdg_surface = true →
      surface.is_layer_surface = false →
      (WF_HAS_XWAYLAND = false ∨ surface.is_xwayland_surface = false) →
      wl_surface_to_wayfire_view WF_HAS_XWAYLAND (some ⟨some surface⟩) = surface.xdg_data) ∧
    (∀ surface : wlr_surface, surface.is_xdg_surface = false →
      surface.is_layer_surface = true →
      (WF_HAS_XWAYLAND = false ∨ surface.is_xwayland_surface = false) →
      wl_surface_to_wayfire_view WF_HAS_XWAYLAND (some ⟨some surface⟩) = surface.layer_data) ∧
    (∀ surface : wlr_surface, surface.is_xdg_surface = false →
      surface.is_layer_surface = false →
      WF_HAS_XWAYLAND = true → surface.is_xwayland_surface = true →
      wl_surface_to_wayfire_view WF_HAS_XWAYLAND (some ⟨some surface⟩) =
        surface.xwayland_data) := by
  refine ⟨rfl, rfl, ?_, ?_, ?_, ?_⟩
  · intro surface h1 h2 h3
    have h4 : ¬ (WF_HAS_XWAYLAND = true ∧ surface.is_xwayland_surface = true) := by
      rintro ⟨ha, hb⟩
      rcases h3 with h3 | h3
      · rw [ha] at h3; cases h3
      · rw [hb] at h3; cases h3
    simp [wl_surface_to_wayfire_view, h1, h2, h4]
  · intro surface h1 h2 h3
    have h4 : ¬ (WF_HAS_XWAYLAND = true ∧ surface.is_xwayland_surface = true) := by
      rintro ⟨ha, hb⟩
      rcases h3 with h3 | h3
      · rw [ha] at h3; cases h3
      · rw [hb] at h3; cases h3
    simp only [wl_surface_to_wayfire_view, h1, h2, h4, if_true, if_false]
    cases surface.xdg_data <;> simp
  · intro surface h1 h2 h3
    have h4 : ¬ (WF_HAS_XWAYLAND = true ∧ surface.is_xwayland_surface = true) := by
      rintro ⟨ha, hb⟩
      rcases h3 with h3 | h3
      · rw [ha] at h3; cases h3
      · rw [hb] at h3; cases h3
    simp only [wl_surface_to_wayfire_view, h1, h2, h4, if_true, if_false]
    cases surface.layer_data <;> simp
  · intro surface h1 h2 h3 h4
    simp only [wl_surface_to_wayfire_view, h1, h2, h3, h4, and_self, if_true]
    cases surface.xwayland_data <;> simp

/-- An xdg surface whose data holds view 7 resolves to view 7, a layer-shell
surface whose data is null to no view, an xwayland surface holding view 9 to
view 9, and a surface of no shell to no view. -/
theorem wl_surface_to_wayfire_view_cases_witness :
    wl_surface_to_wayfire_view true
      (some ⟨some ⟨true, some ⟨7, 3, none⟩, false, none, false, none⟩⟩) = some ⟨7, 3, none⟩ ∧
    wl_surface_to_wayfire_view true
      (some ⟨some ⟨false, none, true, none, false, none⟩⟩) = none ∧
    wl_surface_to_wayfire_view true
      (some ⟨some ⟨false, none, false, none, true, some ⟨9, 4, some 1⟩⟩⟩) =
        some ⟨9, 4, some 1⟩ ∧
    wl_surface_to_wayfire_view true
      (some ⟨some ⟨false, some ⟨7, 3, none⟩, false, none, false, none⟩⟩) = none :=
  ⟨(wl_surface_to_wayfire_view_cases true).2.2.2.1 _ rfl rfl (Or.inr rfl),
   (wl_surface_to_wayfire_view_cases true).2.2.2.2.1 _ rfl rfl (Or.inr rfl),
   (wl_surface_to_wayfire_view_cases true).2.2.2.2.2 _ rfl rfl rfl rfl,
   (wl_surface_to_wayfire_view_cases true).2.2.1 _ rfl rfl (Or.inr rfl)⟩

/-! ## The unguarded output of the map signal -/

/-- C20, the code at a view without output: `emit_view_map_signal` (and
`emit_view_map`) delivers to the view and then calls `emit` through the null
output pointer, so the delivery to the core does not happen, while
`emit_view_unmap`, `emit_view_pre_unmap` and `emit_geometry_changed_signal`
test the pointer and deliver to the view and the core. -/
theorem emit_view_map_signal_unguarded :
    emit_view_map_signal ⟨3, 1, none⟩ false =
      outcome.null_dereference [⟨scope.view 3, signal.view_mapped_signal 3 false⟩] ∧
    emit_view_map ⟨3, 1, none⟩ =
      outcome.null_dereference [⟨scope.view 3, signal.view_mapped_signal 3 false⟩] ∧
    emit_view_unmap ⟨3, 1, none⟩ =
      outcome.done [⟨scope.view 3, signal.view_unmapped_signal 3⟩,
        ⟨scope.core, signal.view_unmapped_signal 3⟩] ∧
    emit_view_pre_unmap ⟨3, 1, none⟩ =
      outcome.done [⟨scope.view 3, signal.view_pre_unmap_signal 3⟩,
        ⟨scope.core, signal.view_pre_unmap_signal 3⟩] ∧
    emit_geometry_changed_signal ⟨3, 1, none⟩ ⟨0, 0, 10, 10⟩ =
      outcome.done [⟨scope.view 3, signal.view_geometry_changed_signal 3 ⟨0, 0, 10, 10⟩⟩,
        ⟨scope.core, signal.view_geometry_changed_signal 3 ⟨0, 0, 10, 10⟩⟩] :=
  ⟨rfl, rfl, rfl, rfl, rfl⟩

end wf
